import Mathlib

/-!
# Verification of the dottorrent piece-hashing pipeline and metainfo assembly

Shallow embedding of `src/dottorrent/__init__.py` (class `Torrent`).

Modelling conventions:
* byte strings are `List Nat` (each element a byte value);
* the external hash library (`hashlib.sha1` / `hashlib.md5`) is a black box:
  the pipeline is parameterised over a `HashFns` record; theorems that need
  the 20-byte SHA-1 digest length take it as a hypothesis;
* the filesystem collaborator is an `FsInput` value: a missing path, a single
  file with its bytes, or a directory expansion (the ordered `os.walk` file
  list, filtered by the model exactly as the source filters it);
* `fnmatch.fnmatch` (external glob library) is a black-box parameter `fnm`;
* CPython float arithmetic in the piece-size heuristic
  (`math.ceil(math.log(total_size / 1500, 2))`) is modelled in exact rational
  arithmetic via `Int.clog`;
* Python exceptions become `Except Exc`; `return False` on cancellation is the
  `(false, _)` success value, mirroring the source's non-exceptional abort.
-/

/-- Exceptions of `dottorrent.exceptions` used by the core. -/
inductive Exc where
  | invalidInput
  | emptyInput
  | invalidPieceSize
  | invalidURL
  | torrentNotGenerated
  deriving DecidableEq, Repr

/-- Black-box hash collaborators (`hashlib.sha1` digest bytes and
`hashlib.md5(...).hexdigest()`), per the spec's external-interface treatment. -/
structure HashFns where
  sha1 : List Nat → List Nat
  md5hex : List Nat → String

/-- Constant `MIN_PIECE_SIZE = 2 ** 14`. -/
def MIN_PIECE_SIZE : Nat := 2 ^ 14

/-- Constant `MAX_PIECE_SIZE = 2 ** 22`. -/
def MAX_PIECE_SIZE : Nat := 2 ^ 22

/-- The `Torrent.piece_size` property setter (lines 135-150).
`None` and `0` are falsy in `if value:`, so both clear the stored size;
a positive value must pass the `value & (value-1) == 0` power-of-two test and
the 16 KiB floor; an oversized value only prints a warning and is stored. -/
def set_piece_size : Option Int → Except Exc (Option Nat)
  | none => .ok none
  | some value =>
    if value = 0 then .ok none
    else
      if 0 < value ∧ value.toNat &&& (value.toNat - 1) = 0 then
        if value.toNat < MIN_PIECE_SIZE then .error .invalidPieceSize
        else .ok (some value.toNat)
      else .error .invalidPieceSize

/-- The automatic piece-size heuristic of `Torrent.get_info` (lines 183-187):
`ps = 1 << max(0, math.ceil(math.log(total_size / 1500, 2)))` then clamping
into `[MIN_PIECE_SIZE, MAX_PIECE_SIZE]`.  The float `log`/`ceil` are modelled
exactly: `Int.clog 2 q` is the ceiling of the base-2 logarithm of `q : ℚ`. -/
def choosePieceSize (total_size : Nat) : Nat :=
  let ps := 1 <<< (max 0 (Int.clog 2 ((total_size : ℚ) / 1500))).toNat
  let ps1 := if ps < MIN_PIECE_SIZE then MIN_PIECE_SIZE else ps
  if ps1 > MAX_PIECE_SIZE then MAX_PIECE_SIZE else ps1

section BasicFacts

theorem choosePieceSize_facts (s : Nat) (hs : 0 < s) :
    (∃ k, choosePieceSize s = 2 ^ k) ∧
    MIN_PIECE_SIZE ≤ choosePieceSize s ∧ choosePieceSize s ≤ MAX_PIECE_SIZE ∧
    (MIN_PIECE_SIZE < choosePieceSize s →
      (choosePieceSize s : ℚ) / 2 < (s : ℚ) / 1500) ∧
    (choosePieceSize s < MAX_PIECE_SIZE →
      (s : ℚ) / 1500 ≤ (choosePieceSize s : ℚ)) := by
  have hq : (0 : ℚ) < (s : ℚ) / 1500 := by positivity
  set q : ℚ := (s : ℚ) / 1500 with hqdef
  set c : ℤ := Int.clog 2 q with hcdef
  set e : Nat := (max 0 c).toNat with hedef
  have hce : c ≤ (e : ℤ) := by
    rw [hedef]
    rcases le_total c 0 with h | h
    · rw [Int.toNat_of_nonneg (le_max_left 0 c)]
      exact le_max_right 0 c
    · rw [Int.toNat_of_nonneg (le_max_left 0 c)]
      exact le_max_right 0 c
  have hF1 : q ≤ ((2 ^ e : Nat) : ℚ) := by
    have h1 : q ≤ (2 : ℚ) ^ c := Int.self_le_zpow_clog (by norm_num) q
    have h2 : (2 : ℚ) ^ c ≤ (2 : ℚ) ^ (e : ℤ) :=
      zpow_le_zpow_right₀ (by norm_num) hce
    have h3 : ((2 ^ e : Nat) : ℚ) = (2 : ℚ) ^ (e : ℤ) := by
      push_cast
      rw [zpow_natCast]
    rw [h3]
    exact h1.trans h2
  have hF2 : 0 < e → ((2 ^ (e - 1) : Nat) : ℚ) < q := by
    intro he
    have hc : 0 < c := by
      by_contra hc0
      push_neg at hc0
      have : max 0 c = 0 := max_eq_left hc0
      rw [hedef, this] at he
      simp at he
    have hec : (e : ℤ) = c := by
      rw [hedef, max_eq_right hc.le, Int.toNat_of_nonneg hc.le]
    have h1 : (2 : ℚ) ^ (c - 1) < q := Int.zpow_pred_clog_lt_self (by norm_num) hq
    have h4 : ((e : ℤ) - 1) = ((e - 1 : ℕ) : ℤ) := by omega
    have h3 : ((2 ^ (e - 1) : Nat) : ℚ) = (2 : ℚ) ^ ((e : ℤ) - 1) := by
      rw [h4, zpow_natCast]
      push_cast
      ring
    rw [h3, hec]
    exact h1
  have hbase : 1 <<< e = 2 ^ e := Nat.one_shiftLeft e
  simp only [choosePieceSize]
  rw [← hqdef, ← hcdef, ← hedef, hbase]
  by_cases hA : 2 ^ e < MIN_PIECE_SIZE
  · rw [if_pos hA, if_neg (by norm_num [MIN_PIECE_SIZE, MAX_PIECE_SIZE])]
    refine ⟨⟨14, rfl⟩, le_refl _, by norm_num [MIN_PIECE_SIZE, MAX_PIECE_SIZE], ?_, ?_⟩
    · intro h
      exact absurd h (lt_irrefl _)
    · intro _
      have : ((2 ^ e : Nat) : ℚ) ≤ ((MIN_PIECE_SIZE : Nat) : ℚ) := by
        exact_mod_cast hA.le
      exact hF1.trans this
  · push_neg at hA
    by_cases hB : 2 ^ e > MAX_PIECE_SIZE
    · rw [if_neg (not_lt.mpr hA), if_pos hB]
      have he23 : 23 ≤ e := by
        have : 2 ^ 22 < 2 ^ e := hB
        have := (Nat.pow_lt_pow_iff_right (a := 2) (by norm_num)).mp this
        omega
      refine ⟨⟨22, rfl⟩, by norm_num [MIN_PIECE_SIZE, MAX_PIECE_SIZE], le_refl _, ?_, ?_⟩
      · intro _
        have h21 : ((2 ^ 21 : Nat) : ℚ) ≤ ((2 ^ (e - 1) : Nat) : ℚ) := by
          have : (2 : Nat) ^ 21 ≤ 2 ^ (e - 1) :=
            Nat.pow_le_pow_right (by norm_num) (by omega)
          exact_mod_cast this
        have hlt := hF2 (by omega)
        have : (MAX_PIECE_SIZE : ℚ) / 2 = ((2 ^ 21 : Nat) : ℚ) := by
          norm_num [MAX_PIECE_SIZE]
        rw [this]
        exact h21.trans_lt hlt
      · intro h
        exact absurd h (lt_irrefl _)
    · push_neg at hB
      rw [if_neg (not_lt.mpr hA), if_neg (not_lt.mpr hB)]
      refine ⟨⟨e, rfl⟩, hA, hB, ?_, fun _ => hF1⟩
      intro hlt
      have he : 0 < e := by
        by_contra h0
        push_neg at h0
        interval_cases e
        · simp [MIN_PIECE_SIZE] at hlt
      have hhalf : ((2 ^ e : Nat) : ℚ) / 2 = ((2 ^ (e - 1) : Nat) : ℚ) := by
        have : (2 : Nat) ^ e = 2 ^ (e - 1) * 2 := by
          rw [← pow_succ]
          congr 1
          omega
        rw [this]
        push_cast
        ring
      rw [hhalf]
      exact hF2 he

end BasicFacts

section PowTwo

theorem pow_two_land_pred (k : Nat) : 2 ^ k &&& (2 ^ k - 1) = 0 := by
  have h := Nat.and_pow_two_sub_one_eq_mod (2 ^ k) k
  rw [Nat.mod_self] at h
  exact h

theorem land_pred_eq_zero_of_pos (n : Nat) (hn : 0 < n) (h : n &&& (n - 1) = 0) :
    ∃ k, n = 2 ^ k := by
  refine ⟨n.log2, ?_⟩
  by_contra hne
  have h1 : 2 ^ n.log2 ≤ n := Nat.log2_self_le (Nat.pos_iff_ne_zero.mp hn)
  have h2 : n < 2 ^ (n.log2 + 1) := Nat.lt_log2_self
  have h3 : 2 ^ n.log2 < n := lt_of_le_of_ne h1 (fun he => hne he.symm)
  have hb1 : n.testBit n.log2 = true := by
    rw [Nat.testBit_to_div_mod]
    have hd : n / 2 ^ n.log2 = 1 := by
      apply Nat.div_eq_of_lt_le
      · simpa using h1
      · calc n < 2 ^ (n.log2 + 1) := h2
          _ = (1 + 1) * 2 ^ n.log2 := by ring
    simp [hd]
  have hb2 : (n - 1).testBit n.log2 = true := by
    rw [Nat.testBit_to_div_mod]
    have hd : (n - 1) / 2 ^ n.log2 = 1 := by
      apply Nat.div_eq_of_lt_le
      · have := Nat.one_le_two_pow (n := n.log2)
        omega
      · have : (1 + 1) * 2 ^ n.log2 = 2 ^ (n.log2 + 1) := by ring
        omega
    simp [hd]
  have : (n &&& (n - 1)).testBit n.log2 = true := by
    rw [Nat.testBit_land, hb1, hb2]
    rfl
  rw [h, Nat.zero_testBit] at this
  exact Bool.false_ne_true this

end PowTwo

section Chunks

/-- Ceiling division `ceil(a / b)` on naturals (used for `math.ceil(total_size / piece_size)`,
modelled exactly). -/
def ceilDiv (a b : Nat) : Nat := (a + b - 1) / b

/-- Byte chunks produced by repeated `f.read(ps)` on a byte stream: at most
`ps` bytes each, in stream order, final chunk possibly short.  The fuel
argument makes the recursion structural; `chunks` supplies fuel `l.length`,
which suffices whenever `0 < ps`. -/
def chunksAux (ps : Nat) : Nat → List Nat → List (List Nat)
  | _, [] => []
  | 0, _ :: _ => []
  | fuel + 1, a :: l => (a :: l).take ps :: chunksAux ps fuel ((a :: l).drop ps)

def chunks (ps : Nat) (l : List Nat) : List (List Nat) := chunksAux ps l.length l

theorem chunks_nil (ps : Nat) : chunks ps [] = [] := rfl

theorem chunksAux_fuel (ps : Nat) (hps : 0 < ps) :
    ∀ fuel, ∀ l : List Nat, l.length ≤ fuel →
      chunksAux ps fuel l = chunksAux ps l.length l := by
  intro fuel
  induction fuel using Nat.strong_induction_on with
  | _ fuel ih =>
    intro l hl
    match fuel, l with
    | 0, [] => rfl
    | fuel + 1, [] => rfl
    | fuel + 1, a :: l' =>
      simp only [List.length_cons, chunksAux]
      have hdl : ((a :: l').drop ps).length ≤ fuel := by
        rw [List.length_drop]
        simp only [List.length_cons] at hl ⊢
        omega
      have hdl' : ((a :: l').drop ps).length ≤ l'.length := by
        rw [List.length_drop]
        simp only [List.length_cons]
        omega
      rw [ih fuel (by omega) _ hdl]
      by_cases hfl : l'.length ≤ fuel
      · rw [ih l'.length (by omega) _ hdl']
      · have : l'.length = fuel := by
          simp only [List.length_cons] at hl
          omega
        rw [this]
        rw [ih fuel (by omega) _ hdl]

theorem chunks_cons (ps : Nat) (hps : 0 < ps) (l : List Nat) (hl : l ≠ []) :
    chunks ps l = l.take ps :: chunks ps (l.drop ps) := by
  obtain ⟨a, l', rfl⟩ := List.exists_cons_of_ne_nil hl
  show chunksAux ps (a :: l').length (a :: l') = _
  simp only [List.length_cons, chunksAux]
  rw [chunksAux_fuel ps hps l'.length _ (by rw [List.length_drop]; simp; omega)]
  rfl

theorem chunks_flatten (ps : Nat) (hps : 0 < ps) (l : List Nat) :
    (chunks ps l).flatten = l := by
  suffices hs : ∀ n, ∀ l : List Nat, l.length ≤ n → (chunks ps l).flatten = l from
    hs l.length l le_rfl
  intro n
  induction n with
  | zero =>
    intro l hl
    have : l = [] := List.length_eq_zero.mp (by omega)
    subst this
    rfl
  | succ n ih =>
    intro l hl
    by_cases h : l = []
    · subst h
      rfl
    · have hpos : 0 < l.length := List.length_pos.mpr h
      rw [chunks_cons ps hps l h, List.flatten_cons,
        ih (l.drop ps) (by rw [List.length_drop]; omega)]
      exact List.take_append_drop ps l

theorem chunks_eq_nil_iff (ps : Nat) (hps : 0 < ps) (l : List Nat) :
    chunks ps l = [] ↔ l = [] := by
  constructor
  · intro h
    by_contra hl
    rw [chunks_cons ps hps l hl] at h
    exact List.cons_ne_nil _ _ h
  · intro h
    subst h
    rfl

theorem chunks_mem_le (ps : Nat) (hps : 0 < ps) (l : List Nat) :
    ∀ c ∈ chunks ps l, 0 < c.length ∧ c.length ≤ ps := by
  suffices hs : ∀ n, ∀ l : List Nat, l.length ≤ n →
      ∀ c ∈ chunks ps l, 0 < c.length ∧ c.length ≤ ps from
    hs l.length l le_rfl
  intro n
  induction n with
  | zero =>
    intro l hl c hc
    have : l = [] := List.length_eq_zero.mp (by omega)
    subst this
    simp [chunks_nil] at hc
  | succ n ih =>
    intro l hl c hc
    by_cases h : l = []
    · subst h
      simp [chunks_nil] at hc
    · have hpos : 0 < l.length := List.length_pos.mpr h
      rw [chunks_cons ps hps l h] at hc
      rcases List.mem_cons.mp hc with rfl | hc'
      · rw [List.length_take]
        constructor
        · omega
        · omega
      · exact ih (l.drop ps) (by rw [List.length_drop]; omega) c hc'

theorem ceilDiv_of_le (n ps : Nat) (h0 : 0 < n) (h1 : n ≤ ps) : ceilDiv n ps = 1 := by
  unfold ceilDiv
  apply Nat.div_eq_of_lt_le
  · omega
  · omega

theorem ceilDiv_add_self (n ps : Nat) (hps : 0 < ps) :
    ceilDiv (n + ps) ps = ceilDiv n ps + 1 := by
  unfold ceilDiv
  have h : n + ps + ps - 1 = (n + ps - 1) + ps := by omega
  rw [h, Nat.add_div_right _ hps]

theorem chunks_length (ps : Nat) (hps : 0 < ps) (l : List Nat) :
    (chunks ps l).length = ceilDiv l.length ps := by
  suffices hs : ∀ n, ∀ l : List Nat, l.length ≤ n →
      (chunks ps l).length = ceilDiv l.length ps from
    hs l.length l le_rfl
  intro n
  induction n with
  | zero =>
    intro l hl
    have : l = [] := List.length_eq_zero.mp (by omega)
    subst this
    simp only [chunks_nil, List.length_nil]
    show 0 = (0 + ps - 1) / ps
    rw [Nat.div_eq_of_lt (by omega)]
  | succ n ih =>
    intro l hl
    by_cases h : l = []
    · subst h
      simp only [chunks_nil, List.length_nil]
      show 0 = (0 + ps - 1) / ps
      rw [Nat.div_eq_of_lt (by omega)]
    · have hpos : 0 < l.length := List.length_pos.mpr h
      rw [chunks_cons ps hps l h]
      simp only [List.length_cons]
      rw [ih (l.drop ps) (by rw [List.length_drop]; omega)]
      rw [List.length_drop]
      by_cases hle : l.length ≤ ps
      · have h1 : l.length - ps = 0 := by omega
        rw [h1]
        show (0 + ps - 1) / ps + 1 = _
        rw [Nat.div_eq_of_lt (by omega), ceilDiv_of_le _ _ hpos hle]
      · have h2 : l.length = (l.length - ps) + ps := by omega
        conv_rhs => rw [h2]
        rw [ceilDiv_add_self _ _ hps]

theorem chunks_single (ps : Nat) (hps : 0 < ps) (l : List Nat) (h0 : l ≠ [])
    (hle : l.length ≤ ps) : chunks ps l = [l] := by
  rw [chunks_cons ps hps l h0, List.take_of_length_le hle,
    List.drop_eq_nil_of_le hle, chunks_nil]

theorem chunks_append_single (ps : Nat) (hps : 0 < ps) (k : Nat) :
    ∀ X Y : List Nat, X.length = ps * k → Y ≠ [] → Y.length ≤ ps →
      chunks ps (X ++ Y) = chunks ps X ++ [Y] := by
  induction k with
  | zero =>
    intro X Y hX hY0 hY
    have : X = [] := List.length_eq_zero.mp (by omega)
    subst this
    simp only [List.nil_append, chunks_nil]
    rw [chunks_single ps hps Y hY0 hY]
  | succ k ih =>
    intro X Y hX hY0 hY
    have hXlen : ps ≤ X.length := by
      rw [hX]
      calc ps = ps * 1 := (Nat.mul_one ps).symm
        _ ≤ ps * (k + 1) := Nat.mul_le_mul_left ps (by omega)
    have hXne : X ≠ [] := by
      intro h
      subst h
      simp at hXlen
      omega
    have hXYne : X ++ Y ≠ [] := by
      simp [hXne]
    rw [chunks_cons ps hps (X ++ Y) hXYne,
      List.take_append_of_le_length hXlen,
      List.drop_append_of_le_length hXlen,
      chunks_cons ps hps X hXne]
    have hd : (X.drop ps).length = ps * k := by
      rw [List.length_drop, hX]
      have : ps * (k + 1) = ps * k + ps := by ring
      omega
    rw [ih (X.drop ps) Y hd hY0 hY]
    rfl

theorem chunks_len_mul (ps : Nat) (hps : 0 < ps) (k : Nat) (X : List Nat)
    (h : X.length = ps * k) : (chunks ps X).length = k := by
  rw [chunks_length ps hps, h]
  unfold ceilDiv
  apply Nat.div_eq_of_lt_le
  · have : k * ps = ps * k := Nat.mul_comm k ps
    omega
  · have : (k + 1) * ps = ps * k + ps := by ring
    omega

end Chunks

section Model

/-- One regular file offered by the filesystem collaborator: its (normalized)
path and its bytes (`os.path.getsize` is the length of `bytes`). -/
structure FileEntry where
  path : String
  bytes : List Nat
  deriving DecidableEq, Repr

/-- The filesystem seen from the input path: a non-existent path, a single
regular file (`os.path.isfile`), or a directory expansion — the ordered file
list produced by `os.walk`, before the source's own filtering. -/
inductive FsInput where
  | missing
  | singleFile (bytes : List Nat)
  | dir (entries : List FileEntry)

/-- Progress/cancellation callable `(filename, pieces_completed, pieces_total)
-> cancel`. -/
abbrev Callback := String → Nat → Nat → Bool

/-- Modelled from the spec: the version string of `dottorrent.version`
(`version.py` is not among the provided sources); only its presence inside
the default creator string matters. -/
def dottorrentVersion : String := "1.10.1"

/-- Constant `DEFAULT_CREATOR` (lines 39-40). -/
def DEFAULT_CREATOR : String :=
  "dottorrent/" ++ dottorrentVersion ++ " (https://github.com/kz26/dottorrent)"

/-- Canonical metainfo values handed to the encoding codec: integers, byte
strings, lists and insertion-ordered dictionaries. -/
inductive BValue where
  | int (n : Int)
  | str (s : List Nat)
  | list (l : List BValue)
  | dict (d : List (String × BValue))

/-- Encoding `str.encode()`, modelled as the code points of the string (identical to
UTF-8 on the ASCII strings the claims involve). -/
def strBytes (s : String) : List Nat := s.data.map Char.toNat

mutual

/-- Modelled from the spec: the external encoding codec `bencoder.bencode` —
ASCII-decimal integers `i...e`, length-prefixed byte strings, `l...e` lists
and `d...e` dictionaries whose keys are emitted in insertion order (a
dictionary key is encoded as the byte string of the key, inlined here so the
recursion is structural). -/
def bencode : BValue → List Nat
  | .int n => strBytes ("i" ++ toString n ++ "e")
  | .str s => strBytes (toString s.length) ++ strBytes ":" ++ s
  | .list l => strBytes "l" ++ bencodeList l ++ strBytes "e"
  | .dict d => strBytes "d" ++ bencodeDict d ++ strBytes "e"

def bencodeList : List BValue → List Nat
  | [] => []
  | v :: vs => bencode v ++ bencodeList vs

def bencodeDict : List (String × BValue) → List Nat
  | [] => []
  | (k, v) :: kvs =>
    (strBytes (toString (strBytes k).length) ++ strBytes ":" ++ strBytes k) ++
      bencode v ++ bencodeDict kvs

end

/-- The `Torrent` instance state: the constructor-set configuration attributes
plus the generation products `_pieces` and `_data`.  `private_flag` models the
source's `private` attribute (a Lean keyword). -/
structure Torrent where
  path : String
  trackers : List String
  web_seeds : List String
  piece_size : Option Nat
  private_flag : Bool
  source : Option String
  creation_date : Option Int
  comment : Option String
  created_by : Option String
  include_md5 : Bool
  exclude : List String
  pieces : List Nat
  data : Option BValue

/-- Model of `str.split(sep)` for a one-character separator, over the character list
(Python semantics: splitting the empty string gives `[""]`, empty segments
are kept). -/
def splitChar (sep : Char) : List Char → List (List Char)
  | [] => [[]]
  | c :: cs =>
    if c = sep then [] :: splitChar sep cs
    else
      match splitChar sep cs with
      | h :: t => (c :: h) :: t
      | [] => [[c]]

/-- Model of `path.split(os.sep)` with `os.sep = "/"` (character-level model of
`str.split` with Python semantics: empty segments are kept). -/
def pathSplit (p : String) : List String := (splitChar '/' p.data).map String.mk

/-- Model of `path.split(os.sep)[-1]`. -/
def basename (p : String) : String := (pathSplit p).getLastD ""

/-- Model of `is_hidden_file` (POSIX branch, lines 56-58): the basename starts with a
dot. -/
def is_hidden_file (p : String) : Bool :=
  match (basename p).data with
  | c :: _ => c == '.'
  | [] => false

/-- The directory-walk filter shared by `get_info` and `generate`
(lines 167-175 and 207-214): an entry is kept unless an exclude pattern
matches its filename, it is empty, or it is hidden.  `fnm` is the external
`fnmatch.fnmatch`. -/
def keepFile (exclude : List String) (fnm : String → String → Bool)
    (f : FileEntry) : Bool :=
  !(exclude.any (fun ext => fnm (basename f.path) ext)) &&
    f.bytes.length ≠ 0 && !(is_hidden_file f.path)

/-- File-list resolution common to `get_info` and `generate`: `none` when the
path does not exist; otherwise the single-file flag and the ordered filtered
file list. -/
def walkFiles (fnm : String → String → Bool) (t : Torrent) :
    FsInput → Option (Bool × List FileEntry)
  | .missing => none
  | .singleFile bytes => some (true, [⟨t.path, bytes⟩])
  | .dir entries => some (false, entries.filter (keepFile t.exclude fnm))

/-- Model of `sum([x[1] for x in files])`. -/
def totalSize (files : List FileEntry) : Nat :=
  (files.map (fun f => f.bytes.length)).sum

/-- The logical concatenation of all files' bytes, in list order. -/
def streamBytes (files : List FileEntry) : List Nat :=
  (files.map FileEntry.bytes).flatten

/-- Model of `Torrent.get_info` (lines 152-188): returns
`(total_size, total_files, piece_size, num_pieces)`; the stored piece size is
used when truthy, else the heuristic runs. -/
def get_info (fnm : String → String → Bool) (t : Torrent) (fs : FsInput) :
    Except Exc (Nat × Nat × Nat × Nat) :=
  match walkFiles fnm t fs with
  | none => .error .invalidInput
  | some (_, files) =>
    if files.length = 0 ∨ totalSize files = 0 then .error .emptyInput
    else
      let ps := match t.piece_size with
        | some p => if p ≠ 0 then p else choosePieceSize (totalSize files)
        | none => choosePieceSize (totalSize files)
      .ok (totalSize files, files.length, ps, ceilDiv (totalSize files) ps)

/-- The hasher's mutable state inside `generate`: the accumulated `_pieces`
digest bytes, the completed-piece counter `pc`, and the rolling buffer `buf`. -/
structure GSt where
  pieces : List Nat
  pc : Nat
  buf : List Nat

/-- One iteration of the chunk loop (lines 236-248): append the chunk to the
rolling buffer; if the buffer holds a full piece or this is the last file,
slice off a piece-size prefix, hash it, bump the counter and consult the
callback (a truthy return is the cancellation `return False`, carried as
`.error` with the mutated state). -/
def hashChunk (H : HashFns) (ps : Nat) (cb : Option Callback) (np : Nat)
    (path : String) (isLast : Bool) (st : GSt) (chunk : List Nat) :
    Except GSt GSt :=
  let bufc := st.buf ++ chunk
  if ps ≤ bufc.length ∨ isLast = true then
    let st' : GSt := ⟨st.pieces ++ H.sha1 (bufc.take ps), st.pc + 1, bufc.drop ps⟩
    match cb with
    | some f => if f path st'.pc np then .error st' else .ok st'
    | none => .ok st'
  else .ok ⟨st.pieces, st.pc, bufc⟩

/-- The chunk loop over one file's reads. -/
def procFile (H : HashFns) (ps : Nat) (cb : Option Callback) (np : Nat)
    (path : String) (isLast : Bool) : List (List Nat) → GSt → Except GSt GSt
  | [], st => .ok st
  | c :: cs, st =>
    match hashChunk H ps cb np path isLast st c with
    | .error st' => .error st'
    | .ok st' => procFile H ps cb np path isLast cs st'

/-- The `while i < len(files)` loop (lines 229-254): process each file's
chunks (the last file triggers per-chunk piece extraction), then record the
file's MD5 hex digest — the accumulator was fed every raw chunk read, i.e.
the concatenation of this file's chunks and nothing else. -/
def fileLoop (H : HashFns) (ps : Nat) (cb : Option Callback) (np : Nat)
    (inc : Bool) : List FileEntry → GSt → List (Option String) →
    Except GSt (GSt × List (Option String))
  | [], st, mds => .ok (st, mds)
  | f :: rest, st, mds =>
    match procFile H ps cb np f.path rest.isEmpty (chunks ps f.bytes) st with
    | .error st' => .error st'
    | .ok st' =>
      let md := if inc then some (H.md5hex ((chunks ps f.bytes).flatten))
                else none
      fileLoop H ps cb np inc rest st' (mds ++ [md])

/-- The trailing `while len(buf)` loop (lines 256-264), with fuel
`st.buf.length` (sufficient whenever `0 < ps`, matching the source where the
piece size is always positive). -/
def drainAux (H : HashFns) (ps : Nat) (cb : Option Callback) (np : Nat)
    (path : String) : Nat → GSt → Except GSt GSt
  | 0, st => .ok st
  | fuel + 1, st =>
    if st.buf.isEmpty then .ok st
    else
      let st' : GSt := ⟨st.pieces ++ H.sha1 (st.buf.take ps), st.pc + 1,
                        st.buf.drop ps⟩
      match cb with
      | some f =>
        if f path st'.pc np then .error st'
        else drainAux H ps cb np path fuel st'
      | none => drainAux H ps cb np path fuel st'

def drain (H : HashFns) (ps : Nat) (cb : Option Callback) (np : Nat)
    (path : String) (st : GSt) : Except GSt GSt :=
  drainAux H ps cb np path st.buf.length st

/-- The whole hashing region of `generate` (lines 223-264) from a fresh state:
the per-file loop then the remaining-data loop (which reports the last file's
path, as the source's `fe` is still bound to it). -/
def hashPipeline (H : HashFns) (ps : Nat) (cb : Option Callback) (inc : Bool)
    (np : Nat) (files : List FileEntry) :
    Except GSt (GSt × List (Option String)) :=
  match fileLoop H ps cb np inc files ⟨[], 0, []⟩ [] with
  | .error st => .error st
  | .ok (st, mds) =>
    let lastPath := match files.getLast? with
      | some f => f.path
      | none => ""
    match drain H ps cb np lastPath st with
    | .error st' => .error st'
    | .ok st' => .ok (st', mds)

end Model

section Assembly

/-- Tracker key emission (lines 268-271): a single tracker becomes a scalar
`announce`; several become `announce-list`, one single-element list per
tracker, in order; none emits neither key. -/
def announcePart (trackers : List String) : List (String × BValue) :=
  if trackers.length = 1 then
    [("announce", .str (strBytes (trackers.headD "")))]
  else if 1 < trackers.length then
    [("announce-list", .list (trackers.map (fun x => .list [.str (strBytes x)])))]
  else []

/-- The `comment` key (lines 272-273), emitted only when the comment is truthy
(present and non-empty). -/
def commentPart (t : Torrent) : List (String × BValue) :=
  match t.comment with
  | some c => if c ≠ "" then [("comment", .str (strBytes c))] else []
  | none => []

/-- The `created by` key (lines 274-277): the supplied creator when truthy, else
`DEFAULT_CREATOR`; always present. -/
def createdByPart (t : Torrent) : List (String × BValue) :=
  [("created by", .str (strBytes (match t.created_by with
      | some s => if s ≠ "" then s else DEFAULT_CREATOR
      | none => DEFAULT_CREATOR)))]

/-- The `creation date` key (lines 278-279), emitted when a date was supplied. -/
def creationDatePart (t : Torrent) : List (String × BValue) :=
  match t.creation_date with
  | some ts => [("creation date", .int ts)]
  | none => []

/-- The `url-list` key (lines 280-281), emitted when web seeds exist. -/
def urlListPart (t : Torrent) : List (String × BValue) :=
  if t.web_seeds.isEmpty then []
  else [("url-list", .list (t.web_seeds.map (fun x => .str (strBytes x))))]

/-- Optional top-level keys (lines 272-281), in the source's insertion
order. -/
def optParts (t : Torrent) : List (String × BValue) :=
  commentPart t ++ createdByPart t ++ creationDatePart t ++ urlListPart t

/-- Builder for one `files` entry in multi-file mode (lines 292-298): `length`, optional
`md5sum`, and the path components relative to the input root (the first
`rootParts` components of the file path are dropped). -/
def fileDict (rootParts : Nat) (inc : Bool) (f : FileEntry) (md : Option String) :
    BValue :=
  .dict ([("length", .int (f.bytes.length : Int))] ++
    (if inc then [("md5sum", .str (strBytes (md.getD "")))] else []) ++
    [("path", .list (((pathSplit f.path).drop rootParts).map
        (fun y => .str (strBytes y))))])

/-- The `info` sub-map (lines 282-304). -/
def infoDict (t : Torrent) (single : Bool) (files : List (FileEntry × Option String))
    (piecesBytes : List Nat) (p : Nat) : BValue :=
  .dict ((if single then
      (match files with
       | fm :: _ =>
         [("length", .int (fm.1.bytes.length : Int))] ++
         (if t.include_md5 then [("md5sum", .str (strBytes (fm.2.getD "")))] else []) ++
         [("name", .str (strBytes (basename fm.1.path)))]
       | [] => [])
    else
      [("files", .list (files.map (fun fm =>
          fileDict (pathSplit t.path).length t.include_md5 fm.1 fm.2))),
       ("name", .str (strBytes (basename t.path)))]) ++
    [("pieces", .str piecesBytes),
     ("piece length", .int (p : Int)),
     ("private", .int (if t.private_flag then 1 else 0))] ++
    (match t.source with
     | some s => if s ≠ "" then [("source", .str (strBytes s))] else []
     | none => []))

/-- Document assembly (lines 267-306); the concatenation order is exactly the
source's key insertion order. -/
def buildData (t : Torrent) (single : Bool) (files : List (FileEntry × Option String))
    (piecesBytes : List Nat) (p : Nat) : BValue :=
  .dict (announcePart t.trackers ++ optParts t ++
    [("info", infoDict t single files piecesBytes p)])

/-- Lines 220-222: `if self.piece_size is None: self.piece_size =
self.get_info()[2]` — when unset, run `get_info` and push its chosen piece
size through the property setter; when set, keep the stored value. -/
def resolvePieceSize (fnm : String → String → Bool) (t : Torrent) (fs : FsInput) :
    Except Exc (Option Nat) :=
  match t.piece_size with
  | none =>
    match get_info fnm t fs with
    | .error e => .error e
    | .ok info => set_piece_size (some (info.2.2.1 : Int))
  | some p => .ok (some p)

/-- Model of `Torrent.generate` (lines 190-307): resolve the file list, validate,
resolve the piece size if unset (through `get_info` and the property setter,
lines 220-222), run the hashing pipeline, and assemble `_data`.  Cancellation
yields `.ok (false, ·)` with the partially accumulated `_pieces` kept and
`_data` untouched. -/
def generate (H : HashFns) (fnm : String → String → Bool) (cb : Option Callback)
    (t : Torrent) (fs : FsInput) : Except Exc (Bool × Torrent) :=
  match walkFiles fnm t fs with
  | none => .error .invalidInput
  | some (single, files) =>
    if files.length = 0 ∨ totalSize files = 0 then .error .emptyInput
    else
      match resolvePieceSize fnm t fs with
      | .error e => .error e
      | .ok pso =>
        let t1 : Torrent := { t with piece_size := pso }
        let p := pso.getD 0
        let np := ceilDiv (totalSize files) p
        match hashPipeline H p cb t.include_md5 np files with
        | .error stc => .ok (false, { t1 with pieces := stc.pieces })
        | .ok (st, mds) =>
          .ok (true, { t1 with
                       pieces := st.pieces,
                       data := some (buildData t1 single (files.zip mds) st.pieces p) })

/-- Ordered-dictionary key lookup (first match, insertion order). -/
def lookupStr (k : String) : List (String × BValue) → Option BValue
  | [] => none
  | (k', v) :: rest => if k' = k then some v else lookupStr k rest

def dictGet (k : String) : BValue → Option BValue
  | .dict d => lookupStr k d
  | .int _ => none
  | .str _ => none
  | .list _ => none

/-- Model of `Torrent.dump` (lines 335-345). -/
def dump (t : Torrent) : Except Exc (List Nat) :=
  match t.data with
  | some d => .ok (bencode d)
  | none => .error .torrentNotGenerated

/-- Model of `Torrent.info_hash` (lines 322-333): SHA-1 over the bencoding of the
`info` sub-map alone (the hex rendering of the digest is external). -/
def info_hash (H : HashFns) (t : Torrent) : Except Exc (List Nat) :=
  match t.data with
  | some d => .ok (H.sha1 (bencode ((dictGet "info" d).getD (.dict []))))
  | none => .error .torrentNotGenerated

/-- Model of `Torrent.info_hash_base32` (lines 309-320); `b32` is the external
`base64.b32encode`. -/
def info_hash_base32 (H : HashFns) (b32 : List Nat → List Nat) (t : Torrent) :
    Except Exc (List Nat) :=
  match t.data with
  | some d => .ok (b32 (H.sha1 (bencode ((dictGet "info" d).getD (.dict [])))))
  | none => .error .torrentNotGenerated

end Assembly

section PipelineLemmas

/-- Concatenated digests of a list of raw pieces. -/
def hashCat (H : HashFns) (cs : List (List Nat)) : List Nat :=
  (cs.map H.sha1).flatten

theorem hashCat_append_single (H : HashFns) (cs : List (List Nat)) (c : List Nat) :
    hashCat H (cs ++ [c]) = hashCat H cs ++ H.sha1 c := by
  simp [hashCat]

theorem hashCat_length (H : HashFns) (h20 : ∀ b, (H.sha1 b).length = 20)
    (cs : List (List Nat)) : (hashCat H cs).length = 20 * cs.length := by
  induction cs with
  | nil => rfl
  | cons c cs ih =>
    show (H.sha1 c ++ hashCat H cs).length = 20 * (cs.length + 1)
    rw [List.length_append, h20, ih]
    ring

/-- Invariant at chunk boundaries: the stream consumed so far splits into the
fully extracted pieces (`X`, whose length is a multiple of the piece size) and
the rolling buffer, which always stays strictly shorter than a piece. -/
def HInv (H : HashFns) (ps : Nat) (S : List Nat) (st : GSt) : Prop :=
  ∃ X, S = X ++ st.buf ∧ X.length = ps * st.pc ∧ st.buf.length < ps ∧
    st.pieces = hashCat H (chunks ps X)

/-- Final-state description: the whole stream has been sliced into chunks and
hashed, and the buffer is empty. -/
def HDone (H : HashFns) (ps : Nat) (S : List Nat) (st : GSt) : Prop :=
  st.buf = [] ∧ st.pc = (chunks ps S).length ∧
    st.pieces = hashCat H (chunks ps S)

theorem inv_step_full (H : HashFns) (ps : Nat) (hps : 0 < ps) (S : List Nat)
    (st : GSt) (c : List Nat) (hInv : HInv H ps S st) (hc : c.length ≤ ps)
    (hfull : ps ≤ (st.buf ++ c).length) :
    HInv H ps (S ++ c) ⟨st.pieces ++ H.sha1 ((st.buf ++ c).take ps), st.pc + 1,
      (st.buf ++ c).drop ps⟩ := by
  obtain ⟨X, hS, hX, hb, hp⟩ := hInv
  have htlen : ((st.buf ++ c).take ps).length = ps := by
    rw [List.length_take]
    omega
  refine ⟨X ++ (st.buf ++ c).take ps, ?_, ?_, ?_, ?_⟩
  · show S ++ c = (X ++ (st.buf ++ c).take ps) ++ (st.buf ++ c).drop ps
    rw [hS, List.append_assoc, List.append_assoc, List.take_append_drop]
  · rw [List.length_append, hX, htlen]
    ring
  · show ((st.buf ++ c).drop ps).length < ps
    rw [List.length_drop, List.length_append]
    rw [List.length_append] at hfull
    omega
  · show st.pieces ++ H.sha1 ((st.buf ++ c).take ps) = _
    rw [chunks_append_single ps hps st.pc X _ hX
        (by intro hnil
            have := congrArg List.length hnil
            rw [htlen] at this
            simp at this
            omega)
        (le_of_eq htlen),
      hashCat_append_single, hp]

theorem inv_step_short (H : HashFns) (ps : Nat) (hps : 0 < ps) (S : List Nat)
    (st : GSt) (c : List Nat) (hInv : HInv H ps S st) (hc0 : c ≠ [])
    (hshort : (st.buf ++ c).length < ps) :
    HDone H ps (S ++ c) ⟨st.pieces ++ H.sha1 ((st.buf ++ c).take ps), st.pc + 1,
      (st.buf ++ c).drop ps⟩ := by
  obtain ⟨X, hS, hX, hb, hp⟩ := hInv
  have hbc_ne : st.buf ++ c ≠ [] := by
    simp [hc0]
  have htake : (st.buf ++ c).take ps = st.buf ++ c :=
    List.take_of_length_le hshort.le
  have hdrop : (st.buf ++ c).drop ps = [] :=
    List.drop_eq_nil_of_le hshort.le
  have hchunks : chunks ps (S ++ c) = chunks ps X ++ [st.buf ++ c] := by
    rw [hS, List.append_assoc]
    exact chunks_append_single ps hps st.pc X (st.buf ++ c) hX hbc_ne hshort.le
  refine ⟨hdrop, ?_, ?_⟩
  · rw [hchunks, List.length_append, chunks_len_mul ps hps st.pc X hX]
    rfl
  · rw [hchunks, hashCat_append_single, hp, htake]

theorem inv_step_none (H : HashFns) (ps : Nat) (S : List Nat) (st : GSt)
    (c : List Nat) (hInv : HInv H ps S st)
    (hshort : (st.buf ++ c).length < ps) :
    HInv H ps (S ++ c) ⟨st.pieces, st.pc, st.buf ++ c⟩ := by
  obtain ⟨X, hS, hX, hb, hp⟩ := hInv
  exact ⟨X, by rw [hS, List.append_assoc], hX, hshort, hp⟩

theorem hashChunk_ok (H : HashFns) (ps : Nat) (cb : Option Callback) (np : Nat)
    (path : String) (isLast : Bool) (st : GSt) (c : List Nat) (st1 : GSt)
    (h : hashChunk H ps cb np path isLast st c = .ok st1) :
    ((ps ≤ (st.buf ++ c).length ∨ isLast = true) ∧
      st1 = ⟨st.pieces ++ H.sha1 ((st.buf ++ c).take ps), st.pc + 1,
             (st.buf ++ c).drop ps⟩ ∧
      (∀ f, cb = some f → f path (st.pc + 1) np = false)) ∨
    (¬(ps ≤ (st.buf ++ c).length ∨ isLast = true) ∧
      st1 = ⟨st.pieces, st.pc, st.buf ++ c⟩) := by
  simp only [hashChunk] at h
  by_cases hcond : ps ≤ (st.buf ++ c).length ∨ isLast = true
  · rw [if_pos hcond] at h
    left
    refine ⟨hcond, ?_, ?_⟩
    · cases cb with
      | none =>
        dsimp only at h
        injection h with h
        exact h.symm
      | some f =>
        dsimp only at h
        by_cases hf : f path (st.pc + 1) np = true
        · rw [if_pos hf] at h
          exact absurd h (by simp)
        · rw [if_neg hf] at h
          injection h with h
          exact h.symm
    · intro f hf
      subst hf
      dsimp only at h
      by_cases hfv : f path (st.pc + 1) np = true
      · rw [if_pos hfv] at h
        exact absurd h (by simp)
      · rw [if_neg hfv] at h
        simpa using hfv
  · rw [if_neg hcond] at h
    right
    refine ⟨hcond, ?_⟩
    injection h with h
    exact h.symm

end PipelineLemmas

section LoopLemmas

/-- Shape of a `chunks` output: every chunk before the last is exactly a full
piece; the last is non-empty and at most a piece. -/
inductive WfChunks (ps : Nat) : List (List Nat) → Prop
  | nil : WfChunks ps []
  | single (c : List Nat) (h1 : 0 < c.length) (h2 : c.length ≤ ps) :
      WfChunks ps [c]
  | cons (c : List Nat) (cs : List (List Nat)) (h : c.length = ps)
      (hne : cs ≠ []) (hcs : WfChunks ps cs) : WfChunks ps (c :: cs)

theorem wfChunks_chunks (ps : Nat) (hps : 0 < ps) (l : List Nat) :
    WfChunks ps (chunks ps l) := by
  suffices hs : ∀ n, ∀ l : List Nat, l.length ≤ n → WfChunks ps (chunks ps l) from
    hs l.length l le_rfl
  intro n
  induction n with
  | zero =>
    intro l hl
    have : l = [] := List.length_eq_zero.mp (by omega)
    subst this
    exact .nil
  | succ n ih =>
    intro l hl
    by_cases h : l = []
    · subst h
      exact .nil
    · rw [chunks_cons ps hps l h]
      by_cases hle : l.length ≤ ps
      · rw [List.drop_eq_nil_of_le hle, chunks_nil, List.take_of_length_le hle]
        exact .single l (List.length_pos.mpr h) hle
      · push_neg at hle
        have hdne : l.drop ps ≠ [] := by
          intro hd
          have := congrArg List.length hd
          rw [List.length_drop] at this
          simp at this
          omega
        have htl : (l.take ps).length = ps := by
          rw [List.length_take]
          omega
        exact .cons _ _ htl
          (fun hc => hdne ((chunks_eq_nil_iff ps hps _).mp hc))
          (ih (l.drop ps) (by rw [List.length_drop]; omega))

theorem procFile_not_last (H : HashFns) (ps : Nat) (cb : Option Callback)
    (np : Nat) (path : String) (hps : 0 < ps) :
    ∀ cs : List (List Nat), (∀ c ∈ cs, c.length ≤ ps) →
    ∀ S st st', HInv H ps S st →
    procFile H ps cb np path false cs st = .ok st' →
    HInv H ps (S ++ cs.flatten) st' := by
  intro cs
  induction cs with
  | nil =>
    intro _ S st st' hInv h
    simp only [procFile] at h
    cases h
    simpa using hInv
  | cons c cs ih =>
    intro hle S st st' hInv h
    simp only [procFile] at h
    rcases hh : hashChunk H ps cb np path false st c with st1 | st1 <;> rw [hh] at h
    · exact absurd h (by simp)
    · rcases hashChunk_ok H ps cb np path false st c st1 hh with
        ⟨hcond, hst1, _⟩ | ⟨hcond, hst1⟩
      · have hfull : ps ≤ (st.buf ++ c).length := by
          rcases hcond with hc1 | hc1
          · exact hc1
          · exact absurd hc1 (by simp)
        subst hst1
        have hInv1 := inv_step_full H ps hps S st c hInv
          (hle c (List.mem_cons_self c cs)) hfull
        have := ih (fun x hx => hle x (List.mem_cons_of_mem c hx))
          (S ++ c) _ st' hInv1 h
        rwa [List.flatten_cons, ← List.append_assoc]
      · push_neg at hcond
        subst hst1
        have hInv1 := inv_step_none H ps S st c hInv (by
          have := hcond.1
          omega)
        have := ih (fun x hx => hle x (List.mem_cons_of_mem c hx))
          (S ++ c) _ st' hInv1 h
        rwa [List.flatten_cons, ← List.append_assoc]

theorem procFile_last (H : HashFns) (ps : Nat) (cb : Option Callback)
    (np : Nat) (path : String) (hps : 0 < ps) :
    ∀ cs : List (List Nat), WfChunks ps cs →
    ∀ S st st', HInv H ps S st →
    procFile H ps cb np path true cs st = .ok st' →
    HInv H ps (S ++ cs.flatten) st' ∨ HDone H ps (S ++ cs.flatten) st' := by
  intro cs hwf
  induction hwf with
  | nil =>
    intro S st st' hInv h
    simp only [procFile] at h
    cases h
    left
    simpa using hInv
  | single c h1 h2 =>
    intro S st st' hInv h
    simp only [procFile] at h
    rcases hh : hashChunk H ps cb np path true st c with st1 | st1 <;> rw [hh] at h
    · exact absurd h (by simp)
    · dsimp only at h
      injection h with h
      subst h
      rcases hashChunk_ok H ps cb np path true st c st1 hh with
        ⟨_, hst1, _⟩ | ⟨hcond, _⟩
      · subst hst1
        by_cases hfull : ps ≤ (st.buf ++ c).length
        · left
          have := inv_step_full H ps hps S st c hInv h2 hfull
          simpa using this
        · right
          push_neg at hfull
          have := inv_step_short H ps hps S st c hInv
            (by intro hc; rw [hc] at h1; simp at h1) hfull
          simpa using this
      · exact absurd (Or.inr rfl) hcond
  | cons c cs hlen hne hcs ih =>
    intro S st st' hInv h
    simp only [procFile] at h
    rcases hh : hashChunk H ps cb np path true st c with st1 | st1 <;> rw [hh] at h
    · exact absurd h (by simp)
    · rcases hashChunk_ok H ps cb np path true st c st1 hh with
        ⟨_, hst1, _⟩ | ⟨hcond, _⟩
      · subst hst1
        have hfull : ps ≤ (st.buf ++ c).length := by
          rw [List.length_append, hlen]
          omega
        have hInv1 := inv_step_full H ps hps S st c hInv (le_of_eq hlen) hfull
        have := ih (S ++ c) _ st' hInv1 h
        rwa [List.flatten_cons, ← List.append_assoc]
      · exact absurd (Or.inr rfl) hcond

theorem streamBytes_cons (f : FileEntry) (rest : List FileEntry) :
    streamBytes (f :: rest) = f.bytes ++ streamBytes rest := by
  simp [streamBytes]

theorem fileLoop_ok (H : HashFns) (ps : Nat) (cb : Option Callback) (np : Nat)
    (inc : Bool) (hps : 0 < ps) :
    ∀ files : List FileEntry, ∀ S st mds st' mds', HInv H ps S st →
    fileLoop H ps cb np inc files st mds = .ok (st', mds') →
    (HInv H ps (S ++ streamBytes files) st' ∨
      HDone H ps (S ++ streamBytes files) st') ∧
    mds' = mds ++ files.map (fun f => if inc then some (H.md5hex f.bytes) else none) := by
  intro files
  induction files with
  | nil =>
    intro S st mds st' mds' hInv h
    simp only [fileLoop] at h
    cases h
    refine ⟨Or.inl (by simpa [streamBytes] using hInv), by simp⟩
  | cons f rest ih =>
    intro S st mds st' mds' hInv h
    simp only [fileLoop] at h
    rcases hh : procFile H ps cb np f.path rest.isEmpty (chunks ps f.bytes) st
      with st1 | st1 <;> rw [hh] at h
    · exact absurd h (by simp)
    · by_cases hrest : rest = []
      · subst hrest
        have hres := procFile_last H ps cb np f.path hps _
          (wfChunks_chunks ps hps f.bytes) S st st1 hInv hh
        simp only [fileLoop] at h
        cases h
        rw [chunks_flatten ps hps] at hres
        constructor
        · simpa [streamBytes] using hres
        · simp [chunks_flatten ps hps]
      · have hempty : rest.isEmpty = false := by
          simpa using hrest
        rw [hempty] at hh
        have hInv1 := procFile_not_last H ps cb np f.path hps _
          (fun c hc => (chunks_mem_le ps hps f.bytes c hc).2) S st st1 hInv hh
        rw [chunks_flatten ps hps] at hInv1
        have hrec := ih (S ++ f.bytes) st1 _ st' mds' hInv1 h
        constructor
        · rw [streamBytes_cons, ← List.append_assoc]
          exact hrec.1
        · rw [hrec.2]
          simp [chunks_flatten ps hps]

theorem drainAux_buf_nil (H : HashFns) (ps : Nat) (cb : Option Callback)
    (np : Nat) (path : String) (st : GSt) (hb : st.buf = []) :
    ∀ fuel, drainAux H ps cb np path fuel st = .ok st := by
  intro fuel
  cases fuel with
  | zero => rfl
  | succ n =>
    simp only [drainAux, hb]
    rfl

theorem drain_done (H : HashFns) (ps : Nat) (cb : Option Callback) (np : Nat)
    (path : String) (hps : 0 < ps) (S : List Nat) (st st' : GSt)
    (h : HInv H ps S st ∨ HDone H ps S st)
    (hd : drain H ps cb np path st = .ok st') : HDone H ps S st' := by
  by_cases hb : st.buf = []
  · rw [drain, drainAux_buf_nil H ps cb np path st hb] at hd
    injection hd with hd
    subst hd
    rcases h with hInv | hDone
    · obtain ⟨X, hS, hX, _, hp⟩ := hInv
      rw [hb, List.append_nil] at hS
      refine ⟨hb, ?_, ?_⟩
      · rw [hS, chunks_len_mul ps hps st.pc X hX]
      · rw [hS]
        exact hp
    · exact hDone
  · rcases h with hInv | hDone
    · obtain ⟨X, hS, hX, hblt, hp⟩ := hInv
      obtain ⟨n, hn⟩ : ∃ n, st.buf.length = n + 1 :=
        ⟨st.buf.length - 1, by have := List.length_pos.mpr hb; omega⟩
      rw [drain, hn] at hd
      simp only [drainAux] at hd
      rw [if_neg (by simpa using hb)] at hd
      have hdropb : st.buf.drop ps = [] := List.drop_eq_nil_of_le hblt.le
      have htakeb : st.buf.take ps = st.buf := List.take_of_length_le hblt.le
      have hgoal : HDone H ps S
          ⟨st.pieces ++ H.sha1 (st.buf.take ps), st.pc + 1, st.buf.drop ps⟩ := by
        have hchunks : chunks ps S = chunks ps X ++ [st.buf] := by
          rw [hS]
          exact chunks_append_single ps hps st.pc X st.buf hX hb hblt.le
        refine ⟨hdropb, ?_, ?_⟩
        · show st.pc + 1 = _
          rw [hchunks, List.length_append, chunks_len_mul ps hps st.pc X hX]
          rfl
        · show st.pieces ++ H.sha1 (st.buf.take ps) = _
          rw [hchunks, hashCat_append_single, hp, htakeb]
      cases cb with
      | none =>
        dsimp only at hd
        rw [drainAux_buf_nil H ps none np path _ hdropb] at hd
        injection hd with hd
        subst hd
        exact hgoal
      | some f =>
        dsimp only at hd
        by_cases hf : f path (st.pc + 1) np = true
        · rw [if_pos hf] at hd
          exact absurd hd (by simp)
        · rw [if_neg hf] at hd
          rw [drainAux_buf_nil H ps (some f) np path _ hdropb] at hd
          injection hd with hd
          subst hd
          exact hgoal
    · exact absurd hDone.1 hb

theorem streamBytes_length (files : List FileEntry) :
    (streamBytes files).length = totalSize files := by
  rw [streamBytes, totalSize, List.length_flatten, List.map_map]
  rfl

theorem hashPipeline_ok (H : HashFns) (ps : Nat) (cb : Option Callback)
    (inc : Bool) (np : Nat) (files : List FileEntry) (st : GSt)
    (mds : List (Option String)) (hps : 0 < ps)
    (h : hashPipeline H ps cb inc np files = .ok (st, mds)) :
    HDone H ps (streamBytes files) st ∧
    mds = files.map (fun f => if inc then some (H.md5hex f.bytes) else none) := by
  unfold hashPipeline at h
  rcases hfl : fileLoop H ps cb np inc files ⟨[], 0, []⟩ [] with st0 | p0 <;>
    rw [hfl] at h
  · exact absurd h (by simp)
  · obtain ⟨st0, mds0⟩ := p0
    dsimp only at h
    have hInit : HInv H ps [] ⟨[], 0, []⟩ :=
      ⟨[], rfl, by simp, by simpa using hps, rfl⟩
    have hres := fileLoop_ok H ps cb np inc hps files [] ⟨[], 0, []⟩ [] st0 mds0
      hInit hfl
    rcases hdr : drain H ps cb np
        (match files.getLast? with | some f => f.path | none => "") st0
      with st1 | st1 <;> rw [hdr] at h
    · exact absurd h (by simp)
    · dsimp only at h
      injection h with h
      injection h with h1 h2
      subst h1
      subst h2
      have hdone := drain_done H ps cb np _ hps _ st0 st1
        (by simpa using hres.1) hdr
      exact ⟨by simpa using hdone, by simpa using hres.2⟩

end LoopLemmas

section GenerateLemmas

theorem set_piece_size_pow (v : Nat) (hmin : MIN_PIECE_SIZE ≤ v) (k : Nat)
    (hv : v = 2 ^ k) : set_piece_size (some (v : Int)) = .ok (some v) := by
  have hvpos : 0 < v := lt_of_lt_of_le (by norm_num [MIN_PIECE_SIZE]) hmin
  unfold set_piece_size
  dsimp only
  rw [if_neg (by exact_mod_cast hvpos.ne')]
  rw [if_pos ?cond]
  case cond =>
    constructor
    · exact_mod_cast hvpos
    · rw [Int.toNat_natCast]
      subst hv
      exact pow_two_land_pred k
  rw [Int.toNat_natCast, if_neg (by omega)]

theorem walkFiles_congr (fnm : String → String → Bool) (t t' : Torrent)
    (fs : FsInput) (hpath : t'.path = t.path) (hexc : t'.exclude = t.exclude) :
    walkFiles fnm t' fs = walkFiles fnm t fs := by
  cases fs <;> simp [walkFiles, hpath, hexc]

theorem get_info_heuristic (fnm : String → String → Bool) (t : Torrent)
    (fs : FsInput) (single : Bool) (files : List FileEntry)
    (hwalk : walkFiles fnm t fs = some (single, files))
    (hnone : t.piece_size = none)
    (hne : ¬(files.length = 0 ∨ totalSize files = 0)) :
    get_info fnm t fs = .ok (totalSize files, files.length,
      choosePieceSize (totalSize files),
      ceilDiv (totalSize files) (choosePieceSize (totalSize files))) := by
  unfold get_info
  rw [hwalk]
  dsimp only
  rw [if_neg hne, hnone]

theorem get_info_stored (fnm : String → String → Bool) (t : Torrent)
    (fs : FsInput) (single : Bool) (files : List FileEntry) (p : Nat)
    (hwalk : walkFiles fnm t fs = some (single, files))
    (hps : t.piece_size = some p) (hp : p ≠ 0)
    (hne : ¬(files.length = 0 ∨ totalSize files = 0)) :
    get_info fnm t fs =
      .ok (totalSize files, files.length, p, ceilDiv (totalSize files) p) := by
  unfold get_info
  rw [hwalk]
  dsimp only
  rw [if_neg hne, hps]
  simp [hp]

theorem resolvePieceSize_stored (fnm : String → String → Bool) (t : Torrent)
    (fs : FsInput) (p : Nat) (h : t.piece_size = some p) :
    resolvePieceSize fnm t fs = .ok (some p) := by
  unfold resolvePieceSize
  rw [h]

theorem resolvePieceSize_heuristic (fnm : String → String → Bool) (t : Torrent)
    (fs : FsInput) (single : Bool) (files : List FileEntry)
    (hwalk : walkFiles fnm t fs = some (single, files))
    (hnone : t.piece_size = none)
    (hne : ¬(files.length = 0 ∨ totalSize files = 0)) :
    resolvePieceSize fnm t fs =
      .ok (some (choosePieceSize (totalSize files))) := by
  unfold resolvePieceSize
  rw [hnone, get_info_heuristic fnm t fs single files hwalk hnone hne]
  dsimp only
  have htot : 0 < totalSize files := by
    rcases Nat.eq_zero_or_pos (totalSize files) with h0 | h0
    · exact absurd (Or.inr h0) hne
    · exact h0
  obtain ⟨⟨k, hk⟩, hmin, _, _, _⟩ := choosePieceSize_facts (totalSize files) htot
  exact set_piece_size_pow _ hmin k hk

theorem generate_run (H : HashFns) (fnm : String → String → Bool)
    (cb : Option Callback) (t : Torrent) (fs : FsInput) (single : Bool)
    (files : List FileEntry) (p : Nat)
    (hwalk : walkFiles fnm t fs = some (single, files))
    (hne : ¬(files.length = 0 ∨ totalSize files = 0))
    (hres : resolvePieceSize fnm t fs = .ok (some p)) :
    generate H fnm cb t fs =
      match hashPipeline H p cb t.include_md5 (ceilDiv (totalSize files) p) files with
      | .error stc =>
        .ok (false, { t with piece_size := some p, pieces := stc.pieces })
      | .ok (st, mds) =>
        .ok (true, { t with piece_size := some p,
                            pieces := st.pieces,
                            data := some (buildData { t with piece_size := some p }
                              single (files.zip mds) st.pieces p) }) := by
  unfold generate
  rw [hwalk]
  dsimp only
  rw [if_neg hne, hres]
  dsimp only [Option.getD]

end GenerateLemmas

section LookupLemmas

theorem lookupStr_cons_self (k : String) (v : BValue) (l : List (String × BValue)) :
    lookupStr k ((k, v) :: l) = some v := by
  simp [lookupStr]

theorem lookupStr_cons_ne (k k' : String) (v : BValue) (l : List (String × BValue))
    (h : k' ≠ k) : lookupStr k ((k', v) :: l) = lookupStr k l := by
  simp [lookupStr, h]

theorem lookupStr_append_none (k : String) (l1 l2 : List (String × BValue))
    (h : ∀ kv ∈ l1, kv.1 ≠ k) :
    lookupStr k (l1 ++ l2) = lookupStr k l2 := by
  induction l1 with
  | nil => rfl
  | cons kv l1 ih =>
    obtain ⟨k', v⟩ := kv
    rw [List.cons_append,
      lookupStr_cons_ne k k' v _ (h (k', v) (List.mem_cons_self _ _)),
      ih (fun x hx => h x (List.mem_cons_of_mem _ hx))]

theorem optParts_keys (t : Torrent) :
    ∀ kv ∈ optParts t, kv.1 = "comment" ∨ kv.1 = "created by" ∨
      kv.1 = "creation date" ∨ kv.1 = "url-list" := by
  intro kv hkv
  unfold optParts at hkv
  simp only [List.append_assoc, List.mem_append] at hkv
  rcases hkv with h | h | h | h
  · left
    unfold commentPart at h
    rcases hc : t.comment with _ | c <;> rw [hc] at h <;> dsimp only at h
    · simp at h
    · by_cases hce : c ≠ ""
      · rw [if_pos hce] at h
        simp at h
        subst h
        rfl
      · rw [if_neg hce] at h
        simp at h
  · right; left
    unfold createdByPart at h
    simp at h
    subst h
    rfl
  · right; right; left
    unfold creationDatePart at h
    rcases hc : t.creation_date with _ | d <;> rw [hc] at h <;> dsimp only at h
    · simp at h
    · simp at h
      subst h
      rfl
  · right; right; right
    unfold urlListPart at h
    by_cases hw : t.web_seeds.isEmpty
    · rw [if_pos hw] at h
      simp at h
    · rw [if_neg hw] at h
      simp at h
      subst h
      rfl

theorem announcePart_keys (trackers : List String) :
    ∀ kv ∈ announcePart trackers,
      kv.1 = "announce" ∨ kv.1 = "announce-list" := by
  intro kv hkv
  unfold announcePart at hkv
  by_cases h1 : trackers.length = 1
  · rw [if_pos h1] at hkv
    simp at hkv
    left
    subst hkv
    rfl
  · rw [if_neg h1] at hkv
    by_cases h2 : 1 < trackers.length
    · rw [if_pos h2] at hkv
      simp at hkv
      right
      subst hkv
      rfl
    · rw [if_neg h2] at hkv
      simp at hkv

theorem buildData_lookup_info (t : Torrent) (single : Bool)
    (files : List (FileEntry × Option String)) (piecesBytes : List Nat) (p : Nat) :
    dictGet "info" (buildData t single files piecesBytes p) =
      some (infoDict t single files piecesBytes p) := by
  unfold buildData dictGet
  dsimp only
  rw [List.append_assoc, lookupStr_append_none _ _ _ (by
    intro kv hkv
    rcases announcePart_keys t.trackers kv hkv with h | h <;> rw [h] <;> decide)]
  rw [lookupStr_append_none _ _ _ (by
    intro kv hkv
    rcases optParts_keys t kv hkv with h | h | h | h <;> rw [h] <;> decide)]
  exact lookupStr_cons_self _ _ _

end LookupLemmas

section MoreHelpers

theorem choosePieceSize_min (s : Nat) : MIN_PIECE_SIZE ≤ choosePieceSize s := by
  simp only [choosePieceSize]
  by_cases hA : 1 <<< (max 0 (Int.clog 2 ((s : ℚ) / 1500))).toNat < MIN_PIECE_SIZE
  · rw [if_pos hA, if_neg (by norm_num [MIN_PIECE_SIZE, MAX_PIECE_SIZE])]
  · rw [if_neg hA]
    by_cases hB : 1 <<< (max 0 (Int.clog 2 ((s : ℚ) / 1500))).toNat > MAX_PIECE_SIZE
    · rw [if_pos hB]
      norm_num [MIN_PIECE_SIZE, MAX_PIECE_SIZE]
    · rw [if_neg hB]
      omega

theorem choosePieceSize_pow (s : Nat) : ∃ k, choosePieceSize s = 2 ^ k := by
  simp only [choosePieceSize, Nat.one_shiftLeft]
  by_cases hA : 2 ^ (max 0 (Int.clog 2 ((s : ℚ) / 1500))).toNat < MIN_PIECE_SIZE
  · rw [if_pos hA, if_neg (by norm_num [MIN_PIECE_SIZE, MAX_PIECE_SIZE])]
    exact ⟨14, rfl⟩
  · rw [if_neg hA]
    by_cases hB : 2 ^ (max 0 (Int.clog 2 ((s : ℚ) / 1500))).toNat > MAX_PIECE_SIZE
    · rw [if_pos hB]
      exact ⟨22, rfl⟩
    · rw [if_neg hB]
      exact ⟨_, rfl⟩

theorem choosePieceSize_of_le_1500 (s : Nat) (hs : s ≤ 1500) :
    choosePieceSize s = MIN_PIECE_SIZE := by
  simp only [choosePieceSize]
  have hle1 : ((s : ℚ) / 1500) ≤ 1 := by
    rw [div_le_one (by norm_num)]
    exact_mod_cast hs
  have hcle : Int.clog 2 ((s : ℚ) / 1500) ≤ 0 := by
    rw [Int.clog_of_right_le_one 2 hle1]
    exact neg_nonpos.mpr (Int.natCast_nonneg _)
  rw [max_eq_left hcle]
  norm_num [MIN_PIECE_SIZE, MAX_PIECE_SIZE]

theorem resolvePieceSize_shape (fnm : String → String → Bool) (t : Torrent)
    (fs : FsInput) (single : Bool) (files : List FileEntry)
    (hwalk : walkFiles fnm t fs = some (single, files))
    (hne : ¬(files.length = 0 ∨ totalSize files = 0)) :
    ∃ p, resolvePieceSize fnm t fs = .ok (some p) := by
  rcases hp0 : t.piece_size with _ | p
  · exact ⟨choosePieceSize (totalSize files),
      resolvePieceSize_heuristic fnm t fs single files hwalk hp0 hne⟩
  · exact ⟨p, resolvePieceSize_stored fnm t fs p hp0⟩

theorem buildData_ignores_outputs (t : Torrent) (P : List Nat)
    (D : Option BValue) (single : Bool) (files : List (FileEntry × Option String))
    (pb : List Nat) (p : Nat) :
    buildData { t with pieces := P, data := D } single files pb p =
      buildData t single files pb p := rfl

end MoreHelpers

/-- C3: for every total size `s > 0`, when no explicit piece size is set the
heuristic returns a piece size `p` that is a power of two with
`16384 ≤ p ≤ 4194304`, and `p` is the smallest power of two at least
`s / 1500` unless the clamp interfered: `p / 2 < s / 1500` whenever `p` was
not clamped up to the floor, and `s / 1500 ≤ p` whenever `p` was not clamped
down to the ceiling.  (The source's float `math.log`/`math.ceil` are modelled
in exact rational arithmetic.) -/
theorem claim_C3_heuristic (s : Nat) (hs : 0 < s) :
    (∃ k, choosePieceSize s = 2 ^ k) ∧
    16384 ≤ choosePieceSize s ∧ choosePieceSize s ≤ 4194304 ∧
    (16384 < choosePieceSize s →
      (choosePieceSize s : ℚ) / 2 < (s : ℚ) / 1500) ∧
    (choosePieceSize s < 4194304 →
      (s : ℚ) / 1500 ≤ (choosePieceSize s : ℚ)) := by
  have h := choosePieceSize_facts s hs
  norm_num [MIN_PIECE_SIZE, MAX_PIECE_SIZE] at h
  exact h

/-- C3 witness at `s = 3000000` (heuristic lands strictly inside the clamp
window: `3000000 / 1500 = 2000`, so `p = 2048` is below the floor and the
result is the clamped `16384`; the theorem's guarded inequalities apply). -/
theorem claim_C3_witness :
    (∃ k, choosePieceSize 3000000 = 2 ^ k) ∧
    16384 ≤ choosePieceSize 3000000 ∧ choosePieceSize 3000000 ≤ 4194304 ∧
    (16384 < choosePieceSize 3000000 →
      (choosePieceSize 3000000 : ℚ) / 2 < ((3000000 : Nat) : ℚ) / 1500) ∧
    (choosePieceSize 3000000 < 4194304 →
      ((3000000 : Nat) : ℚ) / 1500 ≤ (choosePieceSize 3000000 : ℚ)) :=
  claim_C3_heuristic 3000000 (by norm_num)

/-- C4 counterexample: the claim says setting the piece size to `0` fails with
`InvalidPieceSize`; in the source `0` is falsy in `if value:`, so the setter
instead clears the stored size to `None` and raises nothing. -/
theorem claim_C4_counterexample :
    set_piece_size (some 0) = .ok none ∧
    set_piece_size (some 0) ≠ .error .invalidPieceSize := by
  refine ⟨rfl, ?_⟩
  intro h
  rw [show set_piece_size (some 0) = .ok none from rfl] at h
  exact Except.noConfusion h

/-- C4 (amended): the setter fails with `InvalidPieceSize` for negative inputs
and for positive non-powers-of-two; the input `0` is treated as unset and
clears the piece size to `None` without error; a power of two below 16384
fails with `InvalidPieceSize`; a power of two at or above 16384 — including
any above 4194304 — succeeds (oversized values only draw a warning). -/
theorem claim_C4_amended (n : Int) :
    (n < 0 → set_piece_size (some n) = .error .invalidPieceSize) ∧
    (n = 0 → set_piece_size (some n) = .ok none) ∧
    (0 < n → (¬∃ k : Nat, n = 2 ^ k) →
      set_piece_size (some n) = .error .invalidPieceSize) ∧
    (∀ k : Nat, n = 2 ^ k → n < (MIN_PIECE_SIZE : Int) →
      set_piece_size (some n) = .error .invalidPieceSize) ∧
    (∀ k : Nat, n = 2 ^ k → (MIN_PIECE_SIZE : Int) ≤ n →
      set_piece_size (some n) = .ok (some n.toNat)) := by
  refine ⟨?_, ?_, ?_, ?_, ?_⟩
  · intro hneg
    unfold set_piece_size
    dsimp only
    rw [if_neg (by omega), if_neg (by
      rintro ⟨h0, _⟩
      omega)]
  · intro h0
    subst h0
    rfl
  · intro hpos hnp
    unfold set_piece_size
    dsimp only
    rw [if_neg (by omega), if_neg (by
      rintro ⟨_, hland⟩
      apply hnp
      obtain ⟨k, hk⟩ := land_pred_eq_zero_of_pos n.toNat (by omega) hland
      refine ⟨k, ?_⟩
      have hcast : ((2 ^ k : Nat) : Int) = (2 : Int) ^ k := by
        push_cast
        ring
      rw [← hcast, ← hk]
      omega)]
  · intro k hk hlt
    have hcast : ((2 ^ k : Nat) : Int) = (2 : Int) ^ k := by
      push_cast
      ring
    have hn' : n.toNat = 2 ^ k := by
      rw [hk, ← hcast, Int.toNat_natCast]
    have hpos : (0 : Int) < n := by
      rw [hk]
      positivity
    unfold set_piece_size
    dsimp only
    rw [if_neg (by omega),
      if_pos ⟨hpos, by rw [hn']; exact pow_two_land_pred k⟩,
      if_pos (by
        simp only [MIN_PIECE_SIZE] at hlt ⊢
        norm_num at hlt ⊢
        omega)]
  · intro k hk hge
    have hcast : ((2 ^ k : Nat) : Int) = (2 : Int) ^ k := by
      push_cast
      ring
    have hn' : n.toNat = 2 ^ k := by
      rw [hk, ← hcast, Int.toNat_natCast]
    have hpos : (0 : Int) < n := by
      rw [hk]
      positivity
    unfold set_piece_size
    dsimp only
    rw [if_neg (by omega),
      if_pos ⟨hpos, by rw [hn']; exact pow_two_land_pred k⟩,
      if_neg (by
        simp only [MIN_PIECE_SIZE] at hge ⊢
        norm_num at hge ⊢
        omega)]

/-- C4 witness: the amended behaviour at concrete inputs `-4` (negative),
`12` (non-power), `0` (cleared), `8192` (power below the floor) and
`8388608 = 2^23` (power above the advisory ceiling, accepted). -/
theorem claim_C4_witness :
    set_piece_size (some (-4)) = .error .invalidPieceSize ∧
    set_piece_size (some 0) = .ok none ∧
    set_piece_size (some 12) = .error .invalidPieceSize ∧
    set_piece_size (some 8192) = .error .invalidPieceSize ∧
    set_piece_size (some 8388608) = .ok (some 8388608) :=
  ⟨(claim_C4_amended (-4)).1 (by norm_num),
   (claim_C4_amended 0).2.1 rfl,
   (claim_C4_amended 12).2.2.1 (by norm_num) (by
     rintro ⟨k, hk⟩
     have h12 : (2 : Nat) ^ k = 12 := by exact_mod_cast hk.symm
     rcases Nat.lt_or_ge k 4 with hks | hks
     · interval_cases k <;> norm_num at h12
     · have h16 : (2 : Nat) ^ 4 ≤ 2 ^ k := Nat.pow_le_pow_right (by norm_num) hks
       norm_num at h16
       omega),
   (claim_C4_amended 8192).2.2.2.1 13 (by norm_num) (by norm_num [MIN_PIECE_SIZE]),
   (claim_C4_amended 8388608).2.2.2.2 23 (by norm_num) (by norm_num [MIN_PIECE_SIZE])⟩

theorem lookup_rest_none (t : Torrent) (info : BValue) (k : String)
    (hk : k = "announce" ∨ k = "announce-list") :
    lookupStr k (optParts t ++ [("info", info)]) = none := by
  rw [lookupStr_append_none _ _ _ (fun kv hkv => by
    rcases optParts_keys t kv hkv with h | h | h | h <;>
      rcases hk with rfl | rfl <;> rw [h] <;> decide)]
  rcases hk with rfl | rfl <;> rfl

/-- C6: tracker emission in the assembled document: zero trackers emit
neither `announce` nor `announce-list`; exactly one emits a scalar `announce`
holding that URL; more than one emits `announce-list` as a list of
single-element lists, one per tracker, preserving input order. -/
theorem claim_C6_trackers (t : Torrent) (single : Bool)
    (files : List (FileEntry × Option String)) (piecesBytes : List Nat)
    (p : Nat) :
    (t.trackers = [] →
      dictGet "announce" (buildData t single files piecesBytes p) = none ∧
      dictGet "announce-list" (buildData t single files piecesBytes p) = none) ∧
    (∀ u, t.trackers = [u] →
      dictGet "announce" (buildData t single files piecesBytes p) =
        some (.str (strBytes u)) ∧
      dictGet "announce-list" (buildData t single files piecesBytes p) = none) ∧
    (1 < t.trackers.length →
      dictGet "announce" (buildData t single files piecesBytes p) = none ∧
      dictGet "announce-list" (buildData t single files piecesBytes p) =
        some (.list (t.trackers.map (fun x => .list [.str (strBytes x)])))) := by
  unfold buildData dictGet
  dsimp only
  refine ⟨?_, ?_, ?_⟩
  · intro h0
    rw [h0, show announcePart [] = [] from rfl, List.nil_append]
    exact ⟨lookup_rest_none t _ _ (Or.inl rfl),
      lookup_rest_none t _ _ (Or.inr rfl)⟩
  · intro u h1
    rw [h1, show announcePart [u] = [("announce", .str (strBytes u))] from rfl,
      List.append_assoc, List.singleton_append]
    constructor
    · exact lookupStr_cons_self _ _ _
    · rw [lookupStr_cons_ne "announce-list" "announce" _ _ (by decide)]
      exact lookup_rest_none t _ _ (Or.inr rfl)
  · intro h2
    have ha : announcePart t.trackers =
        [("announce-list",
          .list (t.trackers.map (fun x => .list [.str (strBytes x)])))] := by
      unfold announcePart
      rw [if_neg (by omega), if_pos h2]
    rw [ha, List.append_assoc, List.singleton_append]
    constructor
    · rw [lookupStr_cons_ne "announce" "announce-list" _ _ (by decide)]
      exact lookup_rest_none t _ _ (Or.inl rfl)
    · exact lookupStr_cons_self _ _ _

/-- C6 witness: concrete torrents with zero, one and three trackers. -/
theorem claim_C6_witness :
    (dictGet "announce" (buildData
        ⟨"d", [], [], none, false, none, none, none, none, false, [], [], none⟩
        true [] [] 4) = none ∧
      dictGet "announce-list" (buildData
        ⟨"d", [], [], none, false, none, none, none, none, false, [], [], none⟩
        true [] [] 4) = none) ∧
    (dictGet "announce" (buildData
        ⟨"d", ["http://a/x"], [], none, false, none, none, none, none, false,
          [], [], none⟩ true [] [] 4) = some (.str (strBytes "http://a/x")) ∧
      dictGet "announce-list" (buildData
        ⟨"d", ["http://a/x"], [], none, false, none, none, none, none, false,
          [], [], none⟩ true [] [] 4) = none) ∧
    (dictGet "announce" (buildData
        ⟨"d", ["http://a/x", "http://b/y", "http://c/z"], [], none, false,
          none, none, none, none, false, [], [], none⟩ true [] [] 4) = none ∧
      dictGet "announce-list" (buildData
        ⟨"d", ["http://a/x", "http://b/y", "http://c/z"], [], none, false,
          none, none, none, none, false, [], [], none⟩ true [] [] 4) =
        some (.list (["http://a/x", "http://b/y", "http://c/z"].map
          (fun x => .list [.str (strBytes x)])))) :=
  ⟨(claim_C6_trackers _ true [] [] 4).1 rfl,
   (claim_C6_trackers _ true [] [] 4).2.1 "http://a/x" rfl,
   (claim_C6_trackers _ true [] [] 4).2.2 (by norm_num)⟩

/-- C8: generation fails with `InvalidInput` when the input path does not
exist, and with `EmptyInput` when the resolved file list is empty or its
total size is zero; both checks short-circuit for every hash collaborator and
callback — i.e. they are raised at the start of generation, before any
hashing. -/
theorem claim_C8_validation (fnm : String → String → Bool) (t : Torrent)
    (fs : FsInput) :
    (fs = .missing →
      ∀ (H : HashFns) (cb : Option Callback),
        generate H fnm cb t fs = .error .invalidInput) ∧
    (∀ single files, walkFiles fnm t fs = some (single, files) →
      files = [] ∨ totalSize files = 0 →
      ∀ (H : HashFns) (cb : Option Callback),
        generate H fnm cb t fs = .error .emptyInput) := by
  constructor
  · rintro rfl H cb
    rfl
  · intro single files hwalk hcond H cb
    unfold generate
    rw [hwalk]
    dsimp only
    rw [if_pos (by
      rcases hcond with h | h
      · left
        rw [h]
        rfl
      · right
        exact h)]

/-- C8 witness: a missing path and an empty directory at concrete inputs. -/
theorem claim_C8_witness :
    generate ⟨fun _ => [], fun _ => ""⟩ (fun _ _ => false) none
      ⟨"d", [], [], some 4, false, none, none, none, none, false, [], [], none⟩
      .missing = .error .invalidInput ∧
    generate ⟨fun _ => [], fun _ => ""⟩ (fun _ _ => false) none
      ⟨"d", [], [], some 4, false, none, none, none, none, false, [], [], none⟩
      (.dir []) = .error .emptyInput :=
  ⟨(claim_C8_validation (fun _ _ => false) _ .missing).1 rfl _ none,
   (claim_C8_validation (fun _ _ => false) _ (.dir [])).2 false [] rfl
     (Or.inl rfl) _ none⟩

/-- Concrete hash collaborators for witnesses: a deterministic 20-byte
stand-in digest and a length-based stand-in hex string. -/
def witnessH : HashFns :=
  ⟨fun b => List.replicate 20 (b.length % 256), fun b => toString b.length⟩

def witnessFnm : String → String → Bool := fun _ _ => false

/-- C1: whenever the input resolves to a non-empty file list with positive
total size and the piece size resolves to `p`, a successful generation pass
stores a pieces byte string of length `20 * ceil(total_size / p)` — one
20-byte SHA-1 digest per piece, in piece order. -/
theorem claim_C1_pieces_length (H : HashFns) (fnm : String → String → Bool)
    (cb : Option Callback) (t : Torrent) (fs : FsInput) (single : Bool)
    (files : List FileEntry) (p : Nat) (t' : Torrent)
    (h20 : ∀ b, (H.sha1 b).length = 20)
    (hp : 0 < p)
    (hwalk : walkFiles fnm t fs = some (single, files))
    (hne : files ≠ []) (htot : 0 < totalSize files)
    (hres : resolvePieceSize fnm t fs = .ok (some p))
    (hgen : generate H fnm cb t fs = .ok (true, t')) :
    t'.pieces.length = 20 * ceilDiv (totalSize files) p := by
  have hguard : ¬(files.length = 0 ∨ totalSize files = 0) := by
    push_neg
    exact ⟨fun h => hne (List.length_eq_zero.mp h), htot.ne'⟩
  rw [generate_run H fnm cb t fs single files p hwalk hguard hres] at hgen
  rcases hpp : hashPipeline H p cb t.include_md5 (ceilDiv (totalSize files) p)
      files with stc | stm <;> rw [hpp] at hgen
  · injection hgen with hgen
    exact absurd (congrArg Prod.fst hgen) (by simp)
  · obtain ⟨st, mds⟩ := stm
    injection hgen with hgen
    have ht' : t' = _ := (congrArg Prod.snd hgen).symm
    obtain ⟨hdone, _⟩ := hashPipeline_ok H p cb t.include_md5 _ files st mds hp hpp
    rw [ht']
    show st.pieces.length = _
    rw [hdone.2.2, hashCat_length H h20, chunks_length p hp, streamBytes_length]

/-- C1 witness: a 5-byte single file at piece size 4 (two pieces, 40 digest
bytes). -/
theorem claim_C1_witness :
    ∃ t', generate witnessH witnessFnm none
        ⟨"d", [], [], some 4, false, none, none, none, none, false, [], [], none⟩
        (.singleFile [1, 2, 3, 4, 5]) = .ok (true, t') ∧
      t'.pieces.length = 20 * ceilDiv (totalSize [⟨"d", [1, 2, 3, 4, 5]⟩]) 4 := by
  obtain ⟨t', ht⟩ : ∃ t', generate witnessH witnessFnm none
      ⟨"d", [], [], some 4, false, none, none, none, none, false, [], [], none⟩
      (.singleFile [1, 2, 3, 4, 5]) = .ok (true, t') := ⟨_, rfl⟩
  exact ⟨t', ht, claim_C1_pieces_length witnessH witnessFnm none
    ⟨"d", [], [], some 4, false, none, none, none, none, false, [], [], none⟩
    (.singleFile [1, 2, 3, 4, 5]) true
    [⟨"d", [1, 2, 3, 4, 5]⟩] 4 t' (fun b => by simp [witnessH]) (by norm_num)
    rfl (by simp) (by decide) rfl ht⟩

/-- C2: a file list of two files of `m` bytes each, hashed at piece size
`2 * m`, yields exactly one piece digest, and that digest is the SHA-1 of the
first file's bytes followed by the second file's bytes: piece boundaries are
byte-stream-driven and cross file boundaries. -/
theorem claim_C2_cross_file_piece (H : HashFns) (fnm : String → String → Bool)
    (cb : Option Callback) (t : Torrent) (fs : FsInput) (single : Bool)
    (f1 f2 : FileEntry) (m : Nat) (t' : Torrent)
    (hm : 0 < m)
    (hl1 : f1.bytes.length = m) (hl2 : f2.bytes.length = m)
    (hwalk : walkFiles fnm t fs = some (single, [f1, f2]))
    (hres : resolvePieceSize fnm t fs = .ok (some (2 * m)))
    (hgen : generate H fnm cb t fs = .ok (true, t')) :
    t'.pieces = H.sha1 (f1.bytes ++ f2.bytes) := by
  have htot : totalSize [f1, f2] = 2 * m := by
    simp [totalSize, hl1, hl2]
    ring
  have hguard : ¬([f1, f2].length = 0 ∨ totalSize [f1, f2] = 0) := by
    push_neg
    exact ⟨by simp, by omega⟩
  rw [generate_run H fnm cb t fs single [f1, f2] (2 * m) hwalk hguard hres]
    at hgen
  rcases hpp : hashPipeline H (2 * m) cb t.include_md5
      (ceilDiv (totalSize [f1, f2]) (2 * m)) [f1, f2] with stc | stm <;>
    rw [hpp] at hgen
  · injection hgen with hgen
    exact absurd (congrArg Prod.fst hgen) (by simp)
  · obtain ⟨st, mds⟩ := stm
    injection hgen with hgen
    have ht' : t' = _ := (congrArg Prod.snd hgen).symm
    obtain ⟨hdone, _⟩ := hashPipeline_ok H (2 * m) cb t.include_md5 _ [f1, f2]
      st mds (by omega) hpp
    rw [ht']
    show st.pieces = _
    rw [hdone.2.2]
    have hstream : streamBytes [f1, f2] = f1.bytes ++ f2.bytes := by
      simp [streamBytes]
    rw [hstream, chunks_single (2 * m) (by omega) _
      (by
        intro hnil
        have := congrArg List.length hnil
        rw [List.length_append, hl1, hl2] at this
        simp at this
        omega)
      (by rw [List.length_append, hl1, hl2]; omega)]
    simp [hashCat]

/-- C2 witness: two 2-byte files in a directory at piece size 4 — one piece
spanning both files. -/
theorem claim_C2_witness :
    ∃ t', generate witnessH witnessFnm none
        ⟨"d", [], [], some 4, false, none, none, none, none, false, [], [], none⟩
        (.dir [⟨"d/a", [1, 2]⟩, ⟨"d/b", [3, 4]⟩]) = .ok (true, t') ∧
      t'.pieces = witnessH.sha1 ([1, 2] ++ [3, 4]) := by
  obtain ⟨t', ht⟩ : ∃ t', generate witnessH witnessFnm none
      ⟨"d", [], [], some 4, false, none, none, none, none, false, [], [], none⟩
      (.dir [⟨"d/a", [1, 2]⟩, ⟨"d/b", [3, 4]⟩]) = .ok (true, t') := ⟨_, rfl⟩
  exact ⟨t', ht, claim_C2_cross_file_piece witnessH witnessFnm none
    ⟨"d", [], [], some 4, false, none, none, none, none, false, [], [], none⟩
    (.dir [⟨"d/a", [1, 2]⟩, ⟨"d/b", [3, 4]⟩]) false
    ⟨"d/a", [1, 2]⟩ ⟨"d/b", [3, 4]⟩ 2 t' (by norm_num) rfl rfl rfl rfl ht⟩

theorem zip_map_self {α β : Type} (l : List α) (g : α → β) :
    l.zip (l.map g) = l.map (fun a => (a, g a)) := by
  induction l with
  | nil => rfl
  | cons a l ih => simp [ih]

theorem infoDict_lookup_files (t : Torrent)
    (files : List (FileEntry × Option String)) (pb : List Nat) (p : Nat) :
    dictGet "files" (infoDict t false files pb p) =
      some (.list (files.map (fun fm =>
        fileDict (pathSplit t.path).length t.include_md5 fm.1 fm.2))) := by
  unfold infoDict dictGet
  dsimp only
  rw [if_neg (by simp), List.append_assoc, List.cons_append]
  exact lookupStr_cons_self _ _ _

/-- C7: with the MD5 flag set, a successful multi-file generation records for
every file an `md5sum` equal to the MD5 digest of that file's own bytes: the
document's `info.files` list is the file list rendered with each entry's
digest slot holding the MD5 of exactly its own bytes — piece slicing across
file boundaries never mixes a neighbour's bytes into an entry's digest. -/
theorem claim_C7_md5_per_file (H : HashFns) (fnm : String → String → Bool)
    (cb : Option Callback) (t : Torrent) (fs : FsInput)
    (files : List FileEntry) (p : Nat) (t' : Torrent)
    (hmd5 : t.include_md5 = true)
    (hp : 0 < p)
    (hwalk : walkFiles fnm t fs = some (false, files))
    (hne : files ≠ []) (htot : 0 < totalSize files)
    (hres : resolvePieceSize fnm t fs = .ok (some p))
    (hgen : generate H fnm cb t fs = .ok (true, t')) :
    ∃ d, t'.data = some d ∧
      (dictGet "info" d).bind (dictGet "files") =
        some (.list (files.map (fun f =>
          fileDict (pathSplit t.path).length true f
            (some (H.md5hex f.bytes))))) := by
  have hguard : ¬(files.length = 0 ∨ totalSize files = 0) := by
    push_neg
    exact ⟨fun h => hne (List.length_eq_zero.mp h), htot.ne'⟩
  rw [generate_run H fnm cb t fs false files p hwalk hguard hres] at hgen
  rcases hpp : hashPipeline H p cb t.include_md5 (ceilDiv (totalSize files) p)
      files with stc | stm <;> rw [hpp] at hgen
  · injection hgen with hgen
    exact absurd (congrArg Prod.fst hgen) (by simp)
  · obtain ⟨st, mds⟩ := stm
    injection hgen with hgen
    have ht' : t' = _ := (congrArg Prod.snd hgen).symm
    obtain ⟨_, hmds⟩ := hashPipeline_ok H p cb t.include_md5 _ files st mds hp hpp
    refine ⟨buildData { t with piece_size := some p } false (files.zip mds)
      st.pieces p, ?_, ?_⟩
    · rw [ht']
    · rw [buildData_lookup_info]
      show dictGet "files" (infoDict { t with piece_size := some p } false
        (files.zip mds) st.pieces p) = _
      rw [infoDict_lookup_files]
      show some (BValue.list ((files.zip mds).map (fun fm =>
        fileDict (pathSplit t.path).length t.include_md5 fm.1 fm.2))) = _
      simp only [hmds, hmd5, if_true]
      rw [zip_map_self]
      simp [List.map_map]

/-- C7 witness: two 2-byte files with MD5 recording on. -/
theorem claim_C7_witness :
    ∃ t', generate witnessH witnessFnm none
        ⟨"d", [], [], some 4, false, none, none, none, none, true, [], [], none⟩
        (.dir [⟨"d/a", [1, 2]⟩, ⟨"d/b", [3, 4]⟩]) = .ok (true, t') ∧
      ∃ d, t'.data = some d ∧
        (dictGet "info" d).bind (dictGet "files") =
          some (.list ([(⟨"d/a", [1, 2]⟩ : FileEntry),
              ⟨"d/b", [3, 4]⟩].map (fun f =>
            fileDict (pathSplit "d").length true f
              (some (witnessH.md5hex f.bytes))))) := by
  obtain ⟨t', ht⟩ : ∃ t', generate witnessH witnessFnm none
      ⟨"d", [], [], some 4, false, none, none, none, none, true, [], [], none⟩
      (.dir [⟨"d/a", [1, 2]⟩, ⟨"d/b", [3, 4]⟩]) = .ok (true, t') := ⟨_, rfl⟩
  exact ⟨t', ht, claim_C7_md5_per_file witnessH witnessFnm none
    ⟨"d", [], [], some 4, false, none, none, none, none, true, [], [], none⟩
    (.dir [⟨"d/a", [1, 2]⟩, ⟨"d/b", [3, 4]⟩])
    [⟨"d/a", [1, 2]⟩, ⟨"d/b", [3, 4]⟩] 4 t' rfl (by norm_num) rfl (by simp)
    (by decide) rfl ht⟩

section CancelLemmas

theorem procFile_cancel_ok (H : HashFns) (ps np : Nat) (f : Callback)
    (hcb : ∀ s n, f s 1 n = true) (path : String) (isLast : Bool) :
    ∀ cs st st', st.pc = 0 →
    procFile H ps (some f) np path isLast cs st = .ok st' →
    st'.pc = 0 ∧ st'.pieces = st.pieces ∧ st'.buf = st.buf ++ cs.flatten := by
  intro cs
  induction cs with
  | nil =>
    intro st st' h0 h
    simp only [procFile] at h
    cases h
    exact ⟨h0, rfl, by simp⟩
  | cons c cs ih =>
    intro st st' h0 h
    simp only [procFile] at h
    rcases hh : hashChunk H ps (some f) np path isLast st c with st1 | st1 <;>
      rw [hh] at h
    · exact absurd h (by simp)
    · rcases hashChunk_ok H ps (some f) np path isLast st c st1 hh with
        ⟨_, _, hcf⟩ | ⟨_, hst1⟩
      · exfalso
        have hfv := hcf f rfl
        rw [h0, hcb path np] at hfv
        exact Bool.noConfusion hfv
      · subst hst1
        dsimp only at h
        obtain ⟨hpc', hpieces, hbuf⟩ := ih ⟨st.pieces, st.pc, st.buf ++ c⟩ st' h0 h
        refine ⟨hpc', hpieces, ?_⟩
        rw [hbuf]
        simp

theorem fileLoop_cancel_ok (H : HashFns) (ps np : Nat) (inc : Bool)
    (f : Callback) (hps : 0 < ps) (hcb : ∀ s n, f s 1 n = true) :
    ∀ files : List FileEntry, ∀ st mds st' mds', st.pc = 0 →
    fileLoop H ps (some f) np inc files st mds = .ok (st', mds') →
    st'.pc = 0 ∧ st'.buf = st.buf ++ streamBytes files := by
  intro files
  induction files with
  | nil =>
    intro st mds st' mds' h0 h
    simp only [fileLoop] at h
    cases h
    exact ⟨h0, by simp [streamBytes]⟩
  | cons f0 rest ih =>
    intro st mds st' mds' h0 h
    simp only [fileLoop] at h
    rcases hh : procFile H ps (some f) np f0.path rest.isEmpty
        (chunks ps f0.bytes) st with st1 | st1 <;> rw [hh] at h
    · exact absurd h (by simp)
    · obtain ⟨hpc1, _, hbuf1⟩ :=
        procFile_cancel_ok H ps np f hcb f0.path rest.isEmpty _ st st1 h0 hh
      rw [chunks_flatten ps hps] at hbuf1
      obtain ⟨hpc', hbuf'⟩ := ih st1 _ st' mds' hpc1 h
      refine ⟨hpc', ?_⟩
      rw [hbuf', hbuf1, streamBytes_cons, List.append_assoc]

theorem drain_cancel (H : HashFns) (ps np : Nat) (path : String) (f : Callback)
    (hcb : ∀ s n, f s 1 n = true) (st : GSt) (h0 : st.pc = 0)
    (hbuf : st.buf ≠ []) :
    ∃ stc, drain H ps (some f) np path st = .error stc := by
  unfold drain
  obtain ⟨n, hn⟩ : ∃ n, st.buf.length = n + 1 :=
    ⟨st.buf.length - 1, by have := List.length_pos.mpr hbuf; omega⟩
  rw [hn]
  simp only [drainAux]
  rw [if_neg (by simpa using hbuf)]
  dsimp only
  rw [h0, hcb path np]
  exact ⟨_, rfl⟩

theorem hashPipeline_cancel (H : HashFns) (ps np : Nat) (inc : Bool)
    (files : List FileEntry) (f : Callback) (hps : 0 < ps)
    (hcb : ∀ s n, f s 1 n = true) (hstream : streamBytes files ≠ []) :
    ∃ stc, hashPipeline H ps (some f) inc np files = .error stc := by
  rcases hfl : fileLoop H ps (some f) np inc files ⟨[], 0, []⟩ [] with st0 | p0
  · refine ⟨st0, ?_⟩
    unfold hashPipeline
    rw [hfl]
  · obtain ⟨st0, mds0⟩ := p0
    obtain ⟨hpc0, hbuf0⟩ :=
      fileLoop_cancel_ok H ps np inc f hps hcb files ⟨[], 0, []⟩ [] st0 mds0
        rfl hfl
    rw [List.nil_append] at hbuf0
    obtain ⟨stc, hdr⟩ := drain_cancel H ps np
      (match files.getLast? with | some g => g.path | none => "") f hcb st0
      hpc0 (by rw [hbuf0]; exact hstream)
    refine ⟨stc, ?_⟩
    unfold hashPipeline
    rw [hfl]
    dsimp only
    rw [hdr]

end CancelLemmas

/-- C5: a progress callback that returns a truthy cancellation signal at the
first completed piece makes generation on a fresh torrent report failure
(`False`), leaves `_data` unset, and afterwards the hex info hash, the base32
info hash and the serialized dump all fail with `TorrentNotGenerated` — no
partial document is produced. -/
theorem claim_C5_cancellation (H : HashFns) (fnm : String → String → Bool)
    (b32 : List Nat → List Nat) (f : Callback) (t : Torrent) (fs : FsInput)
    (single : Bool) (files : List FileEntry) (p : Nat)
    (hcb : ∀ s n, f s 1 n = true)
    (hdata : t.data = none)
    (hps : t.piece_size = some p) (hp : 0 < p)
    (hwalk : walkFiles fnm t fs = some (single, files))
    (hne : files ≠ []) (htot : 0 < totalSize files) :
    ∃ t', generate H fnm (some f) t fs = .ok (false, t') ∧ t'.data = none ∧
      info_hash H t' = .error .torrentNotGenerated ∧
      info_hash_base32 H b32 t' = .error .torrentNotGenerated ∧
      dump t' = .error .torrentNotGenerated := by
  have hguard : ¬(files.length = 0 ∨ totalSize files = 0) := by
    push_neg
    exact ⟨fun h => hne (List.length_eq_zero.mp h), htot.ne'⟩
  obtain ⟨stc, hpc⟩ := hashPipeline_cancel H p
    (ceilDiv (totalSize files) p) t.include_md5 files f hp hcb
    (by
      intro hnil
      have := congrArg List.length hnil
      rw [streamBytes_length] at this
      simp at this
      omega)
  rw [generate_run H fnm (some f) t fs single files p hwalk hguard
    (resolvePieceSize_stored fnm t fs p hps), hpc]
  refine ⟨{ t with piece_size := some p, pieces := stc.pieces }, rfl, ?_, ?_, ?_, ?_⟩
  · exact hdata
  · unfold info_hash
    show (match t.data with
      | some d => Except.ok (H.sha1 (bencode ((dictGet "info" d).getD (.dict []))))
      | none => Except.error Exc.torrentNotGenerated) = _
    rw [hdata]
  · unfold info_hash_base32
    show (match t.data with
      | some d =>
        Except.ok (b32 (H.sha1 (bencode ((dictGet "info" d).getD (.dict [])))))
      | none => Except.error Exc.torrentNotGenerated) = _
    rw [hdata]
  · unfold dump
    show (match t.data with
      | some d => Except.ok (bencode d)
      | none => Except.error Exc.torrentNotGenerated) = _
    rw [hdata]

/-- C5 witness: a 5-byte single file, piece size 4, and a callback returning
`true` from the first piece on. -/
theorem claim_C5_witness :
    ∃ t', generate witnessH witnessFnm (some (fun _ n _ => n == 1))
        ⟨"d", [], [], some 4, false, none, none, none, none, false, [], [], none⟩
        (.singleFile [1, 2, 3, 4, 5]) = .ok (false, t') ∧ t'.data = none ∧
      info_hash witnessH t' = .error .torrentNotGenerated ∧
      info_hash_base32 witnessH (fun b => b) t' = .error .torrentNotGenerated ∧
      dump t' = .error .torrentNotGenerated :=
  claim_C5_cancellation witnessH witnessFnm (fun b => b) (fun _ n _ => n == 1)
    ⟨"d", [], [], some 4, false, none, none, none, none, false, [], [], none⟩
    (.singleFile [1, 2, 3, 4, 5]) true [⟨"d", [1, 2, 3, 4, 5]⟩] 4
    (fun _ _ => rfl) rfl rfl (by norm_num) rfl (by simp) (by decide)

theorem dump_congr (a b : Torrent) (h : a.data = b.data) : dump a = dump b := by
  unfold dump
  rw [h]

/-- C9: building the document twice from the same unmodified configuration
and file list yields identical results (the code never auto-stamps a creation
date): a second no-callback `generate` on the instance returned by a
successful first run succeeds, produces the same `_data`, and `dump` returns
byte-identical encoded output. -/
theorem claim_C9_idempotent (H : HashFns) (fnm : String → String → Bool)
    (t : Torrent) (fs : FsInput) (t1 : Torrent)
    (hgen : generate H fnm none t fs = .ok (true, t1)) :
    ∃ t2, generate H fnm none t1 fs = .ok (true, t2) ∧
      t2.data = t1.data ∧ dump t2 = dump t1 := by
  rcases hw : walkFiles fnm t fs with _ | sf
  · unfold generate at hgen
    rw [hw] at hgen
    exact absurd hgen (by simp)
  obtain ⟨single, files⟩ := sf
  by_cases hempty : files.length = 0 ∨ totalSize files = 0
  · unfold generate at hgen
    rw [hw] at hgen
    dsimp only at hgen
    rw [if_pos hempty] at hgen
    exact absurd hgen (by simp)
  obtain ⟨p, hrp⟩ := resolvePieceSize_shape fnm t fs single files hw hempty
  rw [generate_run H fnm none t fs single files p hw hempty hrp] at hgen
  rcases hpp : hashPipeline H p none t.include_md5 (ceilDiv (totalSize files) p)
      files with stc | stm <;> rw [hpp] at hgen
  · injection hgen with hgen
    exact absurd (congrArg Prod.fst hgen) (by simp)
  · obtain ⟨st, mds⟩ := stm
    injection hgen with hgen
    injection hgen with hb ht1
    have hpath : t1.path = t.path := by rw [← ht1]
    have hexc : t1.exclude = t.exclude := by rw [← ht1]
    have hps1 : t1.piece_size = some p := by rw [← ht1]
    have hinc : t1.include_md5 = t.include_md5 := by rw [← ht1]
    have hdata1 : t1.data = some (buildData { t with piece_size := some p }
        single (files.zip mds) st.pieces p) := by rw [← ht1]
    have hw2 : walkFiles fnm t1 fs = some (single, files) := by
      rw [walkFiles_congr fnm t t1 fs hpath hexc]
      exact hw
    rw [generate_run H fnm none t1 fs single files p hw2 hempty
      (resolvePieceSize_stored fnm t1 fs p hps1)]
    rw [← hinc] at hpp
    rw [hpp]
    have hdd : some (buildData { t1 with piece_size := some p } single
        (files.zip mds) st.pieces p) = t1.data := by
      rw [hdata1, ← ht1]
      rfl
    refine ⟨_, rfl, hdd, ?_⟩
    exact dump_congr _ _ hdd

/-- C9 witness: a 5-byte single file generated twice. -/
theorem claim_C9_witness :
    ∃ t1 t2, generate witnessH witnessFnm none
        ⟨"d", [], [], some 4, false, none, none, none, none, false, [], [], none⟩
        (.singleFile [1, 2, 3, 4, 5]) = .ok (true, t1) ∧
      generate witnessH witnessFnm none t1 (.singleFile [1, 2, 3, 4, 5]) =
        .ok (true, t2) ∧
      t2.data = t1.data ∧ dump t2 = dump t1 := by
  obtain ⟨t1, h1⟩ : ∃ t1, generate witnessH witnessFnm none
      ⟨"d", [], [], some 4, false, none, none, none, none, false, [], [], none⟩
      (.singleFile [1, 2, 3, 4, 5]) = .ok (true, t1) := ⟨_, rfl⟩
  obtain ⟨t2, h2, hdd, hdump⟩ := claim_C9_idempotent witnessH witnessFnm _ _ t1 h1
  exact ⟨t1, t2, h1, h2, hdd, hdump⟩

/-- C10: when the piece size was unset, any generation outcome — success or
cancellation — permanently stores the heuristic's choice in the instance's
`piece_size` field (so it is non-`None` afterwards), modifies no other
configuration field, and a later `get_info` on the same instance returns the
stored value through its stored-piece-size branch instead of re-running the
heuristic. -/
theorem claim_C10_piece_size_mutation (H : HashFns)
    (fnm : String → String → Bool) (cb : Option Callback) (t : Torrent)
    (fs : FsInput) (single : Bool) (files : List FileEntry) (b : Bool)
    (t' : Torrent)
    (hnone : t.piece_size = none)
    (hwalk : walkFiles fnm t fs = some (single, files))
    (hgen : generate H fnm cb t fs = .ok (b, t')) :
    t'.piece_size = some (choosePieceSize (totalSize files)) ∧
    t'.path = t.path ∧ t'.trackers = t.trackers ∧
    t'.web_seeds = t.web_seeds ∧ t'.private_flag = t.private_flag ∧
    t'.source = t.source ∧ t'.creation_date = t.creation_date ∧
    t'.comment = t.comment ∧ t'.created_by = t.created_by ∧
    t'.include_md5 = t.include_md5 ∧ t'.exclude = t.exclude ∧
    get_info fnm t' fs = .ok (totalSize files, files.length,
      choosePieceSize (totalSize files),
      ceilDiv (totalSize files) (choosePieceSize (totalSize files))) := by
  by_cases hempty : files.length = 0 ∨ totalSize files = 0
  · exfalso
    unfold generate at hgen
    rw [hwalk] at hgen
    dsimp only at hgen
    rw [if_pos hempty] at hgen
    exact absurd hgen (by simp)
  · rw [generate_run H fnm cb t fs single files
      (choosePieceSize (totalSize files)) hwalk hempty
      (resolvePieceSize_heuristic fnm t fs single files hwalk hnone hempty)]
      at hgen
    have hcps : choosePieceSize (totalSize files) ≠ 0 := by
      have hmin := choosePieceSize_min (totalSize files)
      have : (0 : Nat) < MIN_PIECE_SIZE := by norm_num [MIN_PIECE_SIZE]
      omega
    rcases hpp : hashPipeline H (choosePieceSize (totalSize files)) cb
        t.include_md5
        (ceilDiv (totalSize files) (choosePieceSize (totalSize files)))
        files with stc | stm <;> rw [hpp] at hgen
    · injection hgen with hgen
      injection hgen with hb ht'
      subst ht'
      refine ⟨rfl, rfl, rfl, rfl, rfl, rfl, rfl, rfl, rfl, rfl, rfl, ?_⟩
      exact get_info_stored fnm _ fs single files _
        (by refine (walkFiles_congr fnm t _ fs ?_ ?_).trans hwalk <;> rfl)
        rfl hcps hempty
    · obtain ⟨st, mds⟩ := stm
      injection hgen with hgen
      injection hgen with hb ht'
      subst ht'
      refine ⟨rfl, rfl, rfl, rfl, rfl, rfl, rfl, rfl, rfl, rfl, rfl, ?_⟩
      exact get_info_stored fnm _ fs single files _
        (by refine (walkFiles_congr fnm t _ fs ?_ ?_).trans hwalk <;> rfl)
        rfl hcps hempty

/-- C10 witness: a 5-byte single file with no preset piece size; the
heuristic stores the clamped minimum `16384`. -/
theorem claim_C10_witness :
    ∃ (b : Bool) (t' : Torrent),
      generate witnessH witnessFnm none
        ⟨"d", [], [], none, false, none, none, none, none, false, [], [], none⟩
        (.singleFile [1, 2, 3, 4, 5]) = .ok (b, t') ∧
      t'.piece_size = some (choosePieceSize (totalSize [⟨"d", [1, 2, 3, 4, 5]⟩])) ∧
      get_info witnessFnm t' (.singleFile [1, 2, 3, 4, 5]) =
        .ok (totalSize [⟨"d", [1, 2, 3, 4, 5]⟩], 1,
          choosePieceSize (totalSize [⟨"d", [1, 2, 3, 4, 5]⟩]),
          ceilDiv (totalSize [⟨"d", [1, 2, 3, 4, 5]⟩])
            (choosePieceSize (totalSize [⟨"d", [1, 2, 3, 4, 5]⟩]))) := by
  have hw : walkFiles witnessFnm
      ⟨"d", [], [], none, false, none, none, none, none, false, [], [], none⟩
      (.singleFile [1, 2, 3, 4, 5]) = some (true, [⟨"d", [1, 2, 3, 4, 5]⟩]) := rfl
  have hguard : ¬([(⟨"d", [1, 2, 3, 4, 5]⟩ : FileEntry)].length = 0 ∨
      totalSize [⟨"d", [1, 2, 3, 4, 5]⟩] = 0) := by decide
  have hcps : choosePieceSize (totalSize [(⟨"d", [1, 2, 3, 4, 5]⟩ : FileEntry)]) =
      MIN_PIECE_SIZE :=
    choosePieceSize_of_le_1500 _ (by decide)
  have hres : resolvePieceSize witnessFnm
      ⟨"d", [], [], none, false, none, none, none, none, false, [], [], none⟩
      (.singleFile [1, 2, 3, 4, 5]) = .ok (some MIN_PIECE_SIZE) := by
    have h := resolvePieceSize_heuristic witnessFnm
      ⟨"d", [], [], none, false, none, none, none, none, false, [], [], none⟩
      (.singleFile [1, 2, 3, 4, 5]) true [⟨"d", [1, 2, 3, 4, 5]⟩] hw rfl hguard
    rw [hcps] at h
    exact h
  have hrun := generate_run witnessH witnessFnm none
    ⟨"d", [], [], none, false, none, none, none, none, false, [], [], none⟩
    (.singleFile [1, 2, 3, 4, 5]) true [⟨"d", [1, 2, 3, 4, 5]⟩] MIN_PIECE_SIZE
    hw hguard hres
  obtain ⟨res, hres2⟩ : ∃ r, hashPipeline witnessH MIN_PIECE_SIZE none false
      (ceilDiv (totalSize [⟨"d", [1, 2, 3, 4, 5]⟩]) MIN_PIECE_SIZE)
      [⟨"d", [1, 2, 3, 4, 5]⟩] = .ok r := ⟨_, rfl⟩
  obtain ⟨st, mds⟩ := res
  obtain ⟨t', hgen⟩ : ∃ t', generate witnessH witnessFnm none
      ⟨"d", [], [], none, false, none, none, none, none, false, [], [], none⟩
      (.singleFile [1, 2, 3, 4, 5]) = .ok (true, t') := by
    rw [hrun]
    dsimp only
    rw [hres2]
    exact ⟨_, rfl⟩
  have hall := claim_C10_piece_size_mutation witnessH witnessFnm none
    ⟨"d", [], [], none, false, none, none, none, none, false, [], [], none⟩
    (.singleFile [1, 2, 3, 4, 5]) true [⟨"d", [1, 2, 3, 4, 5]⟩] true t'
    rfl hw hgen
  exact ⟨true, t', hgen, hall.1, hall.2.2.2.2.2.2.2.2.2.2.2⟩
